import Mathlib

/-!
Verification development for the swarms-rs multi-agent orchestration engine.

The Rust sources are shallowly embedded: pure fragments become Lean
functions, stateful fragments become explicit state passing, the file
system becomes an explicit map from paths to contents, and every external
effect (LLM completion, vector store, persistence outcome, hash function)
is a parameter of the embedding.  Machine integers are modelled as Nat
with explicit reductions modulo 2 ^ 64 / 2 ^ 32 where the source masks.
-/

set_option maxHeartbeats 1000000

/-! ## Association-list helpers (model of HashMap / DashMap lookups) -/

namespace Swarms

/-- Look up a key in an association list (model of map `get`). -/
def alookup {α : Type} (k : String) : List (String × α) → Option α
  | [] => none
  | (k', v) :: rest => if k' = k then some v else alookup k rest

/-- Insert-or-replace a key in an association list (model of map `insert`).
New keys are appended at the end. -/
def aset {α : Type} (k : String) (v : α) : List (String × α) → List (String × α)
  | [] => [(k, v)]
  | (k', v') :: rest => if k' = k then (k', v) :: rest else (k', v') :: aset k v rest

/-- Remove a key from an association list (model of map `remove`). -/
def aremove {α : Type} (k : String) : List (String × α) → List (String × α)
  | [] => []
  | (k', v') :: rest => if k' = k then rest else (k', v') :: aremove k rest

theorem alookup_aset_self {α : Type} (k : String) (v : α) (l : List (String × α)) :
    alookup k (aset k v l) = some v := by
  induction l with
  | nil => simp [alookup, aset]
  | cons p rest ih =>
    obtain ⟨k', v'⟩ := p
    by_cases h : k' = k <;> simp [alookup, aset, h, ih]

theorem alookup_aset_other {α : Type} (k k₂ : String) (v : α) (l : List (String × α))
    (h : k₂ ≠ k) : alookup k₂ (aset k v l) = alookup k₂ l := by
  induction l with
  | nil =>
    simp only [aset, alookup]
    rw [if_neg (fun hc => h hc.symm)]
  | cons p rest ih =>
    obtain ⟨k', v'⟩ := p
    by_cases hk : k' = k
    · subst hk
      simp only [aset, if_pos rfl, alookup]
      rw [if_neg (fun hc => h hc.symm), if_neg (fun hc => h hc.symm)]
    · simp only [aset, if_neg hk, alookup, ih]

end Swarms

/-! ## Persistence primitive: `RigAgent::save_state` (src/agent/rig_agent.rs)

The file system is modelled as a map from path strings to file contents
plus a set of existing directories.  Serialization of the agent is the
abstract `json` argument: the claim quantifies over byte sequences. -/

namespace Persist

/-- Model of the file-system state visible to `save_state`: files as a map
from absolute path to contents, and the set of directories that exist. -/
structure FS where
  files : List (String × String)
  dirs : List String
deriving Repr

/-- Read a file (model of a successful open/read). -/
def fsRead (fs : FS) (p : String) : Option String := Swarms.alookup p fs.files

/-- Model of `tokio::fs::write`: create or truncate-and-write a file. -/
def fsWrite (fs : FS) (p : String) (data : String) : FS :=
  { fs with files := Swarms.aset p data fs.files }

/-- Model of `tokio::fs::copy src dst` under the guard that `src` exists. -/
def fsCopy (fs : FS) (src dst : String) : FS :=
  match fsRead fs src with
  | none => fs
  | some data => fsWrite fs dst data

/-- Model of `tokio::fs::rename src dst`: move the contents, removing `src`. -/
def fsRename (fs : FS) (src dst : String) : FS :=
  match fsRead fs src with
  | none => fs
  | some data =>
    { fs with files := Swarms.aset dst data (List.filter (fun q => q.1 ≠ src) fs.files) }

/-- Model of `tokio::fs::remove_file`. -/
def fsRemove (fs : FS) (p : String) : FS :=
  { fs with files := List.filter (fun q => q.1 ≠ p) fs.files }

/-- Model of `path.exists()` for a file path. -/
def fsExists (fs : FS) (p : String) : Bool := (fsRead fs p).isSome

/-- Drop the trailing `.ext` segment of a file-name character list that is
known to contain a dot: everything from the last `'.'` on is removed. -/
def cutLastDot (l : List Char) : List Char :=
  ((l.reverse.dropWhile (fun c => c ≠ '.')).drop 1).reverse

/-- Model of Rust `Path::file_stem` composed with the directory part:
`p` without the extension of its final component.  A final component whose
only dot is its leading character keeps its full name, as in Rust. -/
def pathStem (p : String) : String :=
  let r := p.data.reverse
  let nameRev := r.takeWhile (fun c => c ≠ '/')
  let dirRev := r.dropWhile (fun c => c ≠ '/')
  let name := nameRev.reverse
  let stem :=
    match name with
    | [] => []
    | c :: rest => if rest.contains '.' then c :: cutLastDot rest else name
  String.mk (dirRev.reverse ++ stem)

/-- Model of Rust `Path::with_extension`. -/
def withExtension (p ext : String) : String := pathStem p ++ "." ++ ext

/-- Model of `Path::parent` as the part before the final `'/'`, when the
path has one. -/
def parentOf (p : String) : Option String :=
  if p.data.contains '/' then
    some (String.mk (((p.data.reverse.dropWhile (fun c => c ≠ '/')).drop 1).reverse))
  else none

/-- Step 1 of `save_state`: `create_dir_all` on the parent of the target. -/
def stepMkDirs (fs : FS) (target : String) : FS :=
  match parentOf target with
  | none => fs
  | some d => if d ∈ fs.dirs then fs else { fs with dirs := d :: fs.dirs }

/-- Model of `RigAgent::save_state` (src/src/agent/rig_agent.rs, lines
302-340): write the serialized agent (`json`) to `{stem}.json.tmp`, back up
any existing `{stem}.json` to `{stem}.json.bak`, rename the temporary file
over the target, then unlink the backup. -/
def save_state (fs : FS) (save_state_path : String) (json : String) : FS :=
  let backup_path := withExtension save_state_path "json.bak"
  let temp_path := withExtension save_state_path "json.tmp"
  let path := withExtension save_state_path "json"
  let fs1 := stepMkDirs fs path
  let fs2 := fsWrite fs1 temp_path json
  let fs3 := if fsExists fs2 path then fsCopy fs2 path backup_path else fs2
  let fs4 := fsRename fs3 temp_path path
  let fs5 := if fsExists fs4 backup_path then fsRemove fs4 backup_path else fs4
  fs5

/-- The sequence of file-system states passed through by one `save_state`
call, in program order, ending with the final state. -/
def save_state_trace (fs : FS) (save_state_path : String) (json : String) : List FS :=
  let backup_path := withExtension save_state_path "json.bak"
  let temp_path := withExtension save_state_path "json.tmp"
  let path := withExtension save_state_path "json"
  let fs1 := stepMkDirs fs path
  let fs2 := fsWrite fs1 temp_path json
  let fs3 := if fsExists fs2 path then fsCopy fs2 path backup_path else fs2
  let fs4 := fsRename fs3 temp_path path
  let fs5 := if fsExists fs4 backup_path then fsRemove fs4 backup_path else fs4
  [fs, fs1, fs2, fs3, fs4, fs5]

theorem alookup_filter_self {α : Type} (p : String) (l : List (String × α)) :
    Swarms.alookup p (l.filter (fun q => q.1 ≠ p)) = none := by
  induction l with
  | nil => rfl
  | cons q rest ih =>
    obtain ⟨k, v⟩ := q
    simp only [ne_eq, decide_not] at ih ⊢
    rw [List.filter_cons]
    by_cases h : k = p
    · subst h
      rw [if_neg (by simp)]
      exact ih
    · rw [if_pos (by simp [h])]
      simp only [Swarms.alookup, if_neg h, ih]

theorem alookup_filter_other {α : Type} (p q : String) (l : List (String × α))
    (h : q ≠ p) :
    Swarms.alookup q (l.filter (fun r => r.1 ≠ p)) = Swarms.alookup q l := by
  induction l with
  | nil => rfl
  | cons r rest ih =>
    obtain ⟨k, v⟩ := r
    simp only [ne_eq, decide_not] at ih ⊢
    rw [List.filter_cons]
    by_cases hk : k = p
    · subst hk
      have hkq : ¬(k = q) := fun hc => h hc.symm
      rw [if_neg (by simp), ih]
      simp only [Swarms.alookup, if_neg hkq]
    · rw [if_pos (by simp [hk])]
      by_cases hkq : k = q
      · simp only [Swarms.alookup, if_pos hkq]
      · simp only [Swarms.alookup, if_neg hkq, ih]

theorem string_append_right_ne (s a b : String) (h : a ≠ b) : s ++ a ≠ s ++ b := by
  intro hc
  apply h
  have hd : (s ++ a).data = (s ++ b).data := by rw [hc]
  simp only [String.data_append] at hd
  exact String.ext (List.append_cancel_left hd)

theorem withExtension_ne (p e₁ e₂ : String) (h : e₁ ≠ e₂) :
    withExtension p e₁ ≠ withExtension p e₂ := by
  unfold withExtension
  rw [String.append_assoc, String.append_assoc]
  exact string_append_right_ne _ _ _ (string_append_right_ne _ _ _ h)

/-- Core facts about one successful `save_state`: the target holds exactly
the written bytes, no `.json.tmp` or `.json.bak` sibling remains, the
target's parent directory exists afterwards, and at every intermediate
file-system state the target holds either its pre-call contents or the new
contents. -/
theorem save_state_spec (fs : FS) (p json : String) :
    fsRead (save_state fs p json) (withExtension p "json") = some json ∧
    fsRead (save_state fs p json) (withExtension p "json.tmp") = none ∧
    fsRead (save_state fs p json) (withExtension p "json.bak") = none ∧
    (∀ d, parentOf (withExtension p "json") = some d → d ∈ (save_state fs p json).dirs) ∧
    (∀ g ∈ save_state_trace fs p json,
      fsRead g (withExtension p "json") = fsRead fs (withExtension p "json") ∨
      fsRead g (withExtension p "json") = some json) := by
  have htpt : withExtension p "json.tmp" ≠ withExtension p "json" :=
    withExtension_ne p _ _ (by decide)
  have hbkt : withExtension p "json.bak" ≠ withExtension p "json" :=
    withExtension_ne p _ _ (by decide)
  have htpbk : withExtension p "json.tmp" ≠ withExtension p "json.bak" :=
    withExtension_ne p _ _ (by decide)
  set t := withExtension p "json" with ht
  set tp := withExtension p "json.tmp" with htp
  set bk := withExtension p "json.bak" with hbk
  -- abbreviations for the successive states
  set fs1 := stepMkDirs fs t with hfs1
  set fs2 := fsWrite fs1 tp json with hfs2
  set fs3 := (if fsExists fs2 t then fsCopy fs2 t bk else fs2) with hfs3
  set fs4 := fsRename fs3 tp t with hfs4
  set fs5 := (if fsExists fs4 bk then fsRemove fs4 bk else fs4) with hfs5
  have hsave : save_state fs p json = fs5 := rfl
  have htrace : save_state_trace fs p json = [fs, fs1, fs2, fs3, fs4, fs5] := rfl
  -- step 1 leaves files untouched
  have h1files : fs1.files = fs.files := by
    rw [hfs1]; unfold stepMkDirs
    split
    · rfl
    · split <;> rfl
  -- reads after step 2
  have h2t : fsRead fs2 t = fsRead fs t := by
    rw [hfs2]; unfold fsRead fsWrite
    simp only
    rw [Swarms.alookup_aset_other _ _ _ _ (fun hc => htpt hc.symm), h1files]
  have h2tp : fsRead fs2 tp = some json := by
    rw [hfs2]; unfold fsRead fsWrite
    simp only
    exact Swarms.alookup_aset_self _ _ _
  -- reads after step 3
  have h3t : fsRead fs3 t = fsRead fs t := by
    rw [hfs3]
    by_cases hex : fsExists fs2 t
    · simp only [if_pos hex]
      unfold fsCopy
      cases hrt : fsRead fs2 t with
      | none => simpa [hrt] using h2t
      | some v =>
        simp only [hrt]
        unfold fsRead fsWrite
        simp only
        rw [Swarms.alookup_aset_other _ _ _ _ (fun hc => hbkt hc.symm)]
        exact h2t
    · simp only [if_neg hex]; exact h2t
  have h3tp : fsRead fs3 tp = some json := by
    rw [hfs3]
    by_cases hex : fsExists fs2 t
    · simp only [if_pos hex]
      unfold fsCopy
      cases hrt : fsRead fs2 t with
      | none => simpa [hrt] using h2tp
      | some v =>
        simp only [hrt]
        unfold fsRead fsWrite
        simp only
        rw [Swarms.alookup_aset_other _ _ _ _ htpbk]
        exact h2tp
    · simp only [if_neg hex]; exact h2tp
  -- reads after step 4 (the rename installs the new contents)
  have h4t : fsRead fs4 t = some json := by
    rw [hfs4]; unfold fsRename
    rw [show fsRead fs3 tp = some json from h3tp]
    unfold fsRead
    simp only
    exact Swarms.alookup_aset_self _ _ _
  have h4tp : fsRead fs4 tp = none := by
    rw [hfs4]; unfold fsRename
    rw [show fsRead fs3 tp = some json from h3tp]
    unfold fsRead
    simp only
    rw [Swarms.alookup_aset_other _ _ _ _ htpt]
    exact alookup_filter_self _ _
  -- reads after step 5
  have h5t : fsRead fs5 t = some json := by
    rw [hfs5]
    by_cases hex : fsExists fs4 bk
    · simp only [if_pos hex]
      unfold fsRemove fsRead
      simp only
      rw [alookup_filter_other _ _ _ (fun hc => hbkt hc.symm)]
      exact h4t
    · simp only [if_neg hex]; exact h4t
  have h5tp : fsRead fs5 tp = none := by
    rw [hfs5]
    by_cases hex : fsExists fs4 bk
    · simp only [if_pos hex]
      unfold fsRemove fsRead
      simp only
      rw [alookup_filter_other _ _ _ htpbk]
      exact h4tp
    · simp only [if_neg hex]; exact h4tp
  have h5bk : fsRead fs5 bk = none := by
    rw [hfs5]
    by_cases hex : fsExists fs4 bk
    · simp only [if_pos hex]
      unfold fsRemove fsRead
      simp only
      exact alookup_filter_self _ _
    · simp only [if_neg hex]
      unfold fsExists at hex
      cases hr : fsRead fs4 bk with
      | none => rfl
      | some v => rw [hr] at hex; simp at hex
  -- directory creation
  have hdirs2 : fs2.dirs = fs1.dirs := rfl
  have hdirs3 : fs3.dirs = fs1.dirs := by
    rw [hfs3]
    by_cases hex : fsExists fs2 t
    · simp only [if_pos hex]
      unfold fsCopy
      cases hrt : fsRead fs2 t with
      | none => rfl
      | some v => rfl
    · simp only [if_neg hex]; rfl
  have hdirs4 : fs4.dirs = fs1.dirs := by
    rw [hfs4]; unfold fsRename
    cases hr : fsRead fs3 tp with
    | none => exact hdirs3
    | some v => simpa using hdirs3
  have hdirs5 : fs5.dirs = fs1.dirs := by
    rw [hfs5]
    by_cases hex : fsExists fs4 bk
    · simp only [if_pos hex]; unfold fsRemove; simpa using hdirs4
    · simp only [if_neg hex]; exact hdirs4
  have hparent : ∀ d, parentOf t = some d → d ∈ fs5.dirs := by
    intro d hd
    rw [hdirs5, hfs1]
    unfold stepMkDirs
    rw [hd]
    by_cases hc : d ∈ fs.dirs
    · simp only [if_pos hc]
      exact hc
    · simp only [if_neg hc]
      exact List.mem_cons_self _ _
  refine ⟨hsave ▸ h5t, hsave ▸ h5tp, hsave ▸ h5bk, hsave ▸ hparent, ?_⟩
  intro g hg
  rw [htrace] at hg
  have h1t : fsRead fs1 t = fsRead fs t := by
    unfold fsRead; rw [h1files]
  simp only [List.mem_cons, List.not_mem_nil, or_false] at hg
  rcases hg with rfl | rfl | rfl | rfl | rfl | rfl
  · exact Or.inl rfl
  · exact Or.inl h1t
  · exact Or.inl h2t
  · exact Or.inl h3t
  · exact Or.inr h4t
  · exact Or.inr h5t

/-- C6: for every byte sequence and target path, a successful `save_state`
leaves the target file containing exactly the given bytes (creating the
missing parent directory on demand) and leaves no `.tmp` or `.bak` sibling
behind; calling it twice in a row leaves the target equal to the second
serialization with no `.tmp` or `.bak` files remaining; and at every
intermediate file-system state the target holds either the old or the new
contents. -/
theorem c6_save_state_atomic (fs : FS) (p json json₂ : String) :
    fsRead (save_state fs p json) (withExtension p "json") = some json ∧
    fsRead (save_state fs p json) (withExtension p "json.tmp") = none ∧
    fsRead (save_state fs p json) (withExtension p "json.bak") = none ∧
    (∀ d, parentOf (withExtension p "json") = some d →
      d ∈ (save_state fs p json).dirs) ∧
    (∀ g ∈ save_state_trace fs p json,
      fsRead g (withExtension p "json") = fsRead fs (withExtension p "json") ∨
      fsRead g (withExtension p "json") = some json) ∧
    fsRead (save_state (save_state fs p json) p json₂) (withExtension p "json") =
      some json₂ ∧
    fsRead (save_state (save_state fs p json) p json₂) (withExtension p "json.tmp") =
      none ∧
    fsRead (save_state (save_state fs p json) p json₂) (withExtension p "json.bak") =
      none := by
  obtain ⟨h1, h2, h3, h4, h5⟩ := save_state_spec fs p json
  obtain ⟨g1, g2, g3, _, _⟩ := save_state_spec (save_state fs p json) p json₂
  exact ⟨h1, h2, h3, h4, h5, g1, g2, g3⟩

/-- Witness for C6 at a concrete file system, path and contents. -/
theorem c6_save_state_atomic_witness :
    fsRead (save_state ⟨[], []⟩ "dir/state" "A") (withExtension "dir/state" "json") =
      some "A" ∧
    "dir" ∈ (save_state ⟨[], []⟩ "dir/state" "A").dirs ∧
    fsRead (save_state (save_state ⟨[], []⟩ "dir/state" "A") "dir/state" "B")
      (withExtension "dir/state" "json") = some "B" := by
  obtain ⟨h1, _, _, h4, _, g1, _, _⟩ :=
    c6_save_state_atomic ⟨[], []⟩ "dir/state" "A" "B"
  exact ⟨h1, h4 "dir" (by decide), g1⟩

end Persist

/-! ## Multi-agent orchestrator construction
(src/swarms-rs/src/multi_agent_orchestrator.rs) -/

namespace Orch

/-- A worker agent as seen by the orchestrator: its `name()` and
`description()`. -/
structure WorkerSpec where
  name : String
  description : String
deriving DecidableEq, Repr

/-- Errors of `MultiAgentOrchestratorError` relevant to construction. -/
inductive OrchError where
  | nameOrDescriptionNotFound
  | duplicateAgentName (name : String)
deriving DecidableEq, Repr

/-- Model of the `HashSet::insert` scan in `create_boss_system_prompt`:
the first agent name whose insertion into the seen-set fails. -/
def findDupName (seen : List String) : List String → Option String
  | [] => none
  | n :: rest => if n ∈ seen then some n else findDupName (n :: seen) rest

/-- Leading text of the boss system prompt, up to the interpolated roster. -/
def boss_prompt_head : String :=
  "You are a boss agent responsible for routing tasks to the most appropriate specialized agent.\n    Available agents:\n    "

/-- Trailing text of the boss system prompt, after the interpolated roster. -/
def boss_prompt_tail : String :=
  "\n\n    Your job is to:\n    1. Analyze the incoming task\n    2. Select the most appropriate agent based on their descriptions\n    3. Provide clear reasoning for your selection\n    4. Optionally modify the task to better suit the selected agent's capabilities\n\n    Always select exactly one agent that best matches the task requirements.\n    "

/-- Model of `create_boss_system_prompt` (lines 199-240): reject an empty
name or description, then reject a duplicate name, then synthesize the
prompt from one `"- {name}: {description}\n"` line per worker. -/
def create_boss_system_prompt (agents : List WorkerSpec) : Except OrchError String :=
  if agents.any (fun a => (a.name == "") || (a.description == "")) then
    .error .nameOrDescriptionNotFound
  else
    match findDupName [] (agents.map (fun a => a.name)) with
    | some n => .error (.duplicateAgentName n)
    | none =>
      let agent_descriptions :=
        String.join (agents.map (fun a => "- " ++ a.name ++ ": " ++ a.description ++ "\n"))
      .ok (boss_prompt_head ++ agent_descriptions ++ boss_prompt_tail)

/-- The orchestrator as produced by `MultiAgentOrchestrator::new`: the boss
carries the synthesized system prompt. -/
structure MultiAgentOrchestrator where
  boss_system_prompt : String
  agents : List WorkerSpec
  enable_execute_task : Bool

/-- Model of `MultiAgentOrchestrator::new` (lines 51-66): construction
succeeds exactly when the boss system prompt can be synthesized. -/
def MultiAgentOrchestrator.new (agents : List WorkerSpec) (enable_execute_task : Bool) :
    Except OrchError MultiAgentOrchestrator :=
  match create_boss_system_prompt agents with
  | .error e => .error e
  | .ok prompt => .ok ⟨prompt, agents, enable_execute_task⟩

theorem findDupName_none_iff (l : List String) :
    ∀ seen, findDupName seen l = none ↔ l.Nodup ∧ ∀ x ∈ l, x ∉ seen := by
  induction l with
  | nil => intro seen; simp [findDupName]
  | cons n rest ih =>
    intro seen
    by_cases h : n ∈ seen
    · simp only [findDupName, if_pos h]
      constructor
      · intro hc; exact absurd hc (by simp)
      · rintro ⟨-, hall⟩
        exact absurd h (hall n (List.mem_cons_self n rest))
    · simp only [findDupName, if_neg h, ih]
      constructor
      · rintro ⟨hnd, hall⟩
        refine ⟨List.nodup_cons.mpr ⟨?_, hnd⟩, ?_⟩
        · intro hn
          exact (hall n hn) (List.mem_cons_self n seen)
        · intro x hx
          rcases List.mem_cons.mp hx with rfl | hx'
          · exact h
          · exact fun hmem => (hall x hx') (List.mem_cons_of_mem n hmem)
      · rintro ⟨hnd, hall⟩
        obtain ⟨hnr, hnd'⟩ := List.nodup_cons.mp hnd
        refine ⟨hnd', ?_⟩
        intro x hx hmem
        rcases List.mem_cons.mp hmem with rfl | hxs
        · exact hnr hx
        · exact (hall x (List.mem_cons_of_mem n hx)) hxs

theorem findDupName_some_mem (l : List String) :
    ∀ seen n, findDupName seen l = some n → n ∈ l := by
  induction l with
  | nil => intro seen n h; simp [findDupName] at h
  | cons m rest ih =>
    intro seen n h
    by_cases hm : m ∈ seen
    · simp only [findDupName, if_pos hm, Option.some.injEq] at h
      subst h
      exact List.mem_cons_self _ _
    · simp only [findDupName, if_neg hm] at h
      exact List.mem_cons_of_mem m (ih _ n h)

/-- C9: constructing a `MultiAgentOrchestrator` fails with
`NameOrDescriptionNotFound` when some worker has an empty name or empty
description; otherwise fails with `DuplicateAgentName` when two workers
share a name; and otherwise succeeds with a boss system prompt containing
one `"- {name}: {description}"` line per worker. -/
theorem c9_orchestrator_construction (agents : List WorkerSpec) (exec : Bool) :
    ((∃ a ∈ agents, a.name = "" ∨ a.description = "") →
      MultiAgentOrchestrator.new agents exec = .error .nameOrDescriptionNotFound) ∧
    ((∀ a ∈ agents, a.name ≠ "" ∧ a.description ≠ "") →
      ¬(agents.map (fun a => a.name)).Nodup →
      ∃ n, MultiAgentOrchestrator.new agents exec = .error (.duplicateAgentName n) ∧
        n ∈ agents.map (fun a => a.name)) ∧
    ((∀ a ∈ agents, a.name ≠ "" ∧ a.description ≠ "") →
      (agents.map (fun a => a.name)).Nodup →
      MultiAgentOrchestrator.new agents exec = .ok
        ⟨boss_prompt_head ++
          String.join (agents.map (fun a => "- " ++ a.name ++ ": " ++ a.description ++ "\n")) ++
          boss_prompt_tail, agents, exec⟩) := by
  refine ⟨?_, ?_, ?_⟩
  · rintro ⟨a, ha, hcase⟩
    have hany : agents.any (fun a => (a.name == "") || (a.description == "")) = true := by
      rw [List.any_eq_true]
      refine ⟨a, ha, ?_⟩
      rcases hcase with h | h <;> simp [h]
    unfold MultiAgentOrchestrator.new create_boss_system_prompt
    rw [if_pos hany]
  · intro hne hdup
    have hany : agents.any (fun a => (a.name == "") || (a.description == "")) = false := by
      rw [List.any_eq_false]
      intro a ha
      obtain ⟨h1, h2⟩ := hne a ha
      simp [h1, h2]
    cases hfd : findDupName [] (agents.map (fun a => a.name)) with
    | none =>
      exact absurd ((findDupName_none_iff _ []).mp hfd).1 hdup
    | some n =>
      refine ⟨n, ?_, findDupName_some_mem _ [] n hfd⟩
      unfold MultiAgentOrchestrator.new create_boss_system_prompt
      rw [if_neg (by rw [hany]; exact Bool.false_ne_true), hfd]
  · intro hne hnodup
    have hany : agents.any (fun a => (a.name == "") || (a.description == "")) = false := by
      rw [List.any_eq_false]
      intro a ha
      obtain ⟨h1, h2⟩ := hne a ha
      simp [h1, h2]
    have hfd : findDupName [] (agents.map (fun a => a.name)) = none :=
      (findDupName_none_iff _ []).mpr ⟨hnodup, by simp⟩
    unfold MultiAgentOrchestrator.new create_boss_system_prompt
    rw [if_neg (by rw [hany]; exact Bool.false_ne_true), hfd]

/-- Witness for C9: each of the three construction outcomes at concrete
worker rosters. -/
theorem c9_orchestrator_construction_witness :
    MultiAgentOrchestrator.new [⟨"", "d"⟩] true = .error .nameOrDescriptionNotFound ∧
    (∃ n, MultiAgentOrchestrator.new [⟨"a", "d"⟩, ⟨"a", "e"⟩] true =
      .error (.duplicateAgentName n) ∧ n ∈ ["a", "a"]) ∧
    MultiAgentOrchestrator.new [⟨"a", "d"⟩, ⟨"b", "e"⟩] true = .ok
      ⟨boss_prompt_head ++ String.join ["- a: d\n", "- b: e\n"] ++ boss_prompt_tail,
       [⟨"a", "d"⟩, ⟨"b", "e"⟩], true⟩ := by
  refine ⟨?_, ?_, ?_⟩
  · exact (c9_orchestrator_construction [⟨"", "d"⟩] true).1 ⟨⟨"", "d"⟩, by simp, Or.inl rfl⟩
  · exact (c9_orchestrator_construction [⟨"a", "d"⟩, ⟨"a", "e"⟩] true).2.1
      (by intro a ha; fin_cases ha <;> exact ⟨by decide, by decide⟩)
      (by decide)
  · exact (c9_orchestrator_construction [⟨"a", "d"⟩, ⟨"b", "e"⟩] true).2.2
      (by intro a ha; fin_cases ha <;> exact ⟨by decide, by decide⟩)
      (by decide)

end Orch

/-! ## Task digest
(src/swarms-rs/src/agent/rig_agent.rs lines 400-433 and
src/swarms-rs/src/concurrent_workflow.rs lines 162-170)

The XXH3 64-bit hasher comes from the external `twox_hash` crate, so it is
a parameter of the embedding; the two call sites feed it the same bytes
(Rust `Hash for str` writes the UTF-8 bytes followed by a `0xff`
delimiter byte) and post-process its 64-bit result identically. -/

namespace Digest

/-- Bytes fed to the streaming hasher by `task.hash(&mut hasher)`: the
UTF-8 bytes of the string followed by the `0xff` delimiter byte that
Rust's `Hash for str` appends. -/
def rustStrHashBytes (task : String) : List UInt8 := task.toUTF8.toList ++ [0xff]

/-- Lowercase hexadecimal digit for a value below 16. -/
def hexChar (n : Nat) : Char :=
  if n < 10 then Char.ofNat (48 + n) else Char.ofNat (87 + n)

/-- Model of Rust lowercase-hex formatting without padding. -/
def toHexLower (n : Nat) : String :=
  if n = 0 then "0" else String.mk (((Nat.digits 16 n).map hexChar).reverse)

/-- Digest computed by `RigAgent::save_task_state`: `finish()` of the
hasher fed with the task, masked to the lower 32 bits, formatted `:x`. -/
def agent_task_digest (xxh3 : List UInt8 → Nat) (task : String) : String :=
  toHexLower (xxh3 (rustStrHashBytes task) % 4294967296)

/-- Digest computed by `ConcurrentWorkflow::run` for the metadata file
name: the same hasher, mask and formatting. -/
def workflow_task_digest (xxh3 : List UInt8 → Nat) (task : String) : String :=
  toHexLower (xxh3 (rustStrHashBytes task) % 4294967296)

/-- The sixteen characters a lowercase hex rendering may use. -/
def hexCharset : List Char := "0123456789abcdef".data

theorem hexChar_mem_charset : ∀ d, d < 16 → hexChar d ∈ hexCharset := by decide

theorem hexChar_ne_zero_char : ∀ d, d < 16 → d ≠ 0 → hexChar d ≠ '0' := by decide

theorem toHexLower_chars (n : Nat) : ∀ c ∈ (toHexLower n).data, c ∈ hexCharset := by
  intro c hc
  unfold toHexLower at hc
  by_cases h : n = 0
  · rw [if_pos h] at hc
    simp only [String.data] at hc
    have : c = '0' := by simpa using hc
    subst this
    decide
  · rw [if_neg h] at hc
    simp only [String.data] at hc
    rw [List.mem_reverse] at hc
    obtain ⟨d, hd, rfl⟩ := List.mem_map.mp hc
    exact hexChar_mem_charset d (Nat.digits_lt_base (by norm_num) hd)

theorem toHexLower_no_leading_zero (n : Nat) (h : n ≠ 0) :
    (toHexLower n).data.head? ≠ some '0' := by
  unfold toHexLower
  rw [if_neg h]
  simp only [String.data]
  rw [List.head?_reverse, List.getLast?_map]
  have hne : Nat.digits 16 n ≠ [] := Nat.digits_ne_nil_iff_ne_zero.mpr h
  rw [List.getLast?_eq_getLast _ hne]
  have hlast := List.getLast_mem hne
  have hlt : (Nat.digits 16 n).getLast hne < 16 :=
    Nat.digits_lt_base (by norm_num) hlast
  have hnz : (Nat.digits 16 n).getLast hne ≠ 0 :=
    Nat.getLast_digit_ne_zero 16 h
  simp only [Option.map_some', ne_eq, Option.some.injEq]
  exact hexChar_ne_zero_char _ hlt hnz

/-- C7: for every task string and every value of the external 64-bit XXH3
hasher, the digest used for the agent checkpoint file name and the digest
used for the workflow metadata file name coincide, both equal the hash
value masked to its lower 32 bits rendered in hexadecimal, and the
rendering uses lowercase hex digits with no padding (no leading zero). -/
theorem c7_task_digest (xxh3 : List UInt8 → Nat) (task : String) :
    agent_task_digest xxh3 task = workflow_task_digest xxh3 task ∧
    agent_task_digest xxh3 task =
      toHexLower (xxh3 (rustStrHashBytes task) % 4294967296) ∧
    (∀ c ∈ (agent_task_digest xxh3 task).data, c ∈ hexCharset) ∧
    (xxh3 (rustStrHashBytes task) % 4294967296 ≠ 0 →
      (agent_task_digest xxh3 task).data.head? ≠ some '0') := by
  refine ⟨rfl, rfl, toHexLower_chars _, fun h => ?_⟩
  exact toHexLower_no_leading_zero _ h

/-- Witness for C7 at a concrete hash function and task. -/
theorem c7_task_digest_witness :
    agent_task_digest (fun _ => 300) "T" = workflow_task_digest (fun _ => 300) "T" ∧
    agent_task_digest (fun _ => 300) "T" = "12c" ∧
    (agent_task_digest (fun _ => 300) "T").data.head? ≠ some '0' := by
  obtain ⟨h1, h2, _, h4⟩ := c7_task_digest (fun _ => 300) "T"
  refine ⟨h1, ?_, h4 (by norm_num)⟩
  rw [h2]
  have hd : Nat.digits 16 300 = [12, 2, 1] := by
    rw [Nat.digits_def' (by norm_num : (1:ℕ) < 16) (by norm_num : (0:ℕ) < 300)]
    rw [show (300 % 16 : ℕ) = 12 by norm_num, show (300 / 16 : ℕ) = 18 by norm_num]
    rw [Nat.digits_def' (by norm_num : (1:ℕ) < 16) (by norm_num : (0:ℕ) < 18)]
    rw [show (18 % 16 : ℕ) = 2 by norm_num, show (18 / 16 : ℕ) = 1 by norm_num]
    rw [Nat.digits_def' (by norm_num : (1:ℕ) < 16) (by norm_num : (0:ℕ) < 1)]
    norm_num
  rw [show (300 % 4294967296 : ℕ) = 300 by norm_num]
  unfold toHexLower
  rw [if_neg (by norm_num), hd]
  rfl

end Digest

/-! ## Agent runtime: `RigAgent::run`
(src/swarms-rs/src/agent/rig_agent.rs lines 203-307)

External effects (model completion, vector-store retrieval, persistence
outcome, planning completion) are supplied by an environment indexed by
the number of calls made so far.  The short-term memory (the missing
`conversation` module; modelled from the spec, section 4.2: a task-keyed
store whose `add` appends a role-tagged message, creating the conversation
on first use) is an association list from task key to message list. -/

namespace AgentRt

/-- Role of a conversation message, carrying a display name. -/
inductive Role where
  | user (name : String)
  | assistant (name : String)
deriving DecidableEq, Repr

/-- A conversation message. -/
structure Message where
  role : Role
  content : String
deriving DecidableEq, Repr

/-- Agent-loop errors (`AgentError`), collapsed to the kinds the claims
distinguish. -/
inductive AgentError where
  | modelError
  | vectorStoreError
  | ioError
deriving DecidableEq, Repr

/-- The fields of `AgentConfig` read by `RigAgent::run` (the `save_sate_path`
spelling is the source's). -/
structure AgentConfig where
  name : String
  user_name : String
  max_loops : Nat
  retry_attempts : Nat
  plan_enabled : Bool
  planning_prompt : Option String
  autosave : Bool
  rag_every_loop : Bool
  save_sate_path : Option String
  stop_words : List String

/-- Outcomes of the external calls, indexed by how many calls of that kind
were issued before. -/
structure Env where
  chat : Nat → Except AgentError String
  save : Nat → Except AgentError Unit
  rag : Nat → Except AgentError String
  plan_text : Nat → Except AgentError String

/-- Mutable state threaded through one `run(task)`: the short-term memory
and call counters for each external effect. -/
structure RunState where
  memory : List (String × List Message)
  chat_calls : Nat
  save_calls : Nat
  rag_calls : Nat
  plan_calls : Nat

/-- Modelled from the spec: `ShortMemory.add` appends a message to the
conversation of the given task, creating the conversation on first use. -/
def memoryAdd (key : String) (msg : Message) :
    List (String × List Message) → List (String × List Message)
  | [] => [(key, [msg])]
  | (k, conv) :: rest =>
    if k = key then (k, conv ++ [msg]) :: rest else (k, conv) :: memoryAdd key msg rest

/-- Append a message to the short-term memory inside a run state. -/
def memAdd (st : RunState) (key : String) (msg : Message) : RunState :=
  { st with memory := memoryAdd key msg st.memory }

/-- Modelled from the spec: display form of a role, `"name(User)"` or
`"name(Assistant)"`. -/
def roleDisplay : Role → String
  | .user n => n ++ "(User)"
  | .assistant n => n ++ "(Assistant)"

/-- Modelled from the spec: display form of a conversation, one
`"name(kind): content"` line per message. -/
def formatConversation (conv : List Message) : String :=
  String.join (conv.map fun m => roleDisplay m.role ++ ": " ++ m.content ++ "\n")

/-- Model of `RigAgent::is_response_complete` (lines 435-440): some
configured stop-word occurs as a substring of the response. -/
def is_response_complete (cfg : AgentConfig) (response : String) : Bool :=
  cfg.stop_words.any fun word => decide (word.data <:+: response.data)

/-- Model of `RigAgent::save_task_state` as seen from the loop: with no
configured save path it is a no-op `Ok`; otherwise the persistence
outcome (digest, path resolution, serialization and file write) comes from
the environment, consuming one save call. -/
def save_task_state (cfg : AgentConfig) (env : Env) (st : RunState) :
    Except AgentError Unit × RunState :=
  match cfg.save_sate_path with
  | none => (.ok (), st)
  | some _ =>
    match env.save st.save_calls with
    | .ok _ => (.ok (), { st with save_calls := st.save_calls + 1 })
    | .error e => (.error e, { st with save_calls := st.save_calls + 1 })

/-- Model of `RigAgent::handle_error_in_attempts` (lines 182-197): log,
and when autosave is on attempt a best-effort checkpoint whose error is
swallowed. -/
def handle_error_in_attempts (cfg : AgentConfig) (env : Env) (st : RunState) : RunState :=
  if cfg.autosave then (save_task_state cfg env st).2 else st

/-- State local to the main loop: the run state, `last_response` and
`all_responses`. -/
structure LoopState where
  st : RunState
  last_response : String
  all_responses : List String

/-- The model-call portion of one attempt (lines 252-279): on failure
handle the error and continue, on success append the assistant message,
record the response and mark the attempt successful. -/
def chatStep (cfg : AgentConfig) (env : Env) (task : String) (ls : LoopState) :
    Bool × LoopState :=
  match env.chat ls.st.chat_calls with
  | .error _ =>
    let st1 := { ls.st with chat_calls := ls.st.chat_calls + 1 }
    (false, { ls with st := handle_error_in_attempts cfg env st1 })
  | .ok response =>
    let st1 := memAdd { ls.st with chat_calls := ls.st.chat_calls + 1 } task
      ⟨.assistant cfg.name, response⟩
    (true, ⟨st1, response, ls.all_responses ++ [response]⟩)

/-- One attempt of the inner retry loop (lines 239-280): a RAG retrieval
first when enabled, whose failure also counts as a failed attempt. -/
def attemptStep (cfg : AgentConfig) (hasLTM : Bool) (env : Env)
    (task taskPrompt : String) (ls : LoopState) : Bool × LoopState :=
  if hasLTM && cfg.rag_every_loop then
    match env.rag ls.st.rag_calls with
    | .error _ =>
      let st1 := { ls.st with rag_calls := ls.st.rag_calls + 1 }
      (false, { ls with st := handle_error_in_attempts cfg env st1 })
    | .ok doc =>
      let st1 := memAdd { ls.st with rag_calls := ls.st.rag_calls + 1 } taskPrompt
        ⟨.user "[RAG] Database", "Documents Available: " ++ doc⟩
      chatStep cfg env task { ls with st := st1 }
  else
    chatStep cfg env task ls

/-- The inner retry loop `for attempt in 0..retry_attempts` with its
`if success break`. -/
def attemptsLoop (cfg : AgentConfig) (hasLTM : Bool) (env : Env)
    (task taskPrompt : String) : Nat → LoopState → Bool × LoopState
  | 0, ls => (false, ls)
  | n + 1, ls =>
    match attemptStep cfg hasLTM env task taskPrompt ls with
    | (true, ls1) => (true, ls1)
    | (false, ls1) => attemptsLoop cfg hasLTM env task taskPrompt n ls1

/-- The outer loop `for _loop_count in 0..max_loops` (lines 236-292): break
when a whole attempt round failed, or when the last response contains a
stop-word. -/
def mainLoop (cfg : AgentConfig) (hasLTM : Bool) (env : Env) (task : String) :
    Nat → LoopState → LoopState
  | 0, ls => ls
  | n + 1, ls =>
    match attemptsLoop cfg hasLTM env task
        (formatConversation ((Swarms.alookup task ls.st.memory).getD []))
        cfg.retry_attempts ls with
    | (false, ls1) => ls1
    | (true, ls1) =>
      if is_response_complete cfg ls1.last_response then ls1
      else mainLoop cfg hasLTM env task n ls1

/-- The `PLAN` step of `run` (lines 218-221 together with `plan`, lines
354-375): with planning enabled and a planning prompt set, one planning
completion whose reply is appended as an assistant message; with no
planning prompt the step silently succeeds. -/
def planStep (cfg : AgentConfig) (env : Env) (task : String) (st : RunState) :
    Except AgentError Unit × RunState :=
  if cfg.plan_enabled then
    match cfg.planning_prompt with
    | some _ =>
      match env.plan_text st.plan_calls with
      | .error e => (.error e, { st with plan_calls := st.plan_calls + 1 })
      | .ok planText =>
        (.ok (), memAdd { st with plan_calls := st.plan_calls + 1 } task
          ⟨.assistant cfg.name, planText⟩)
    | none => (.ok (), st)
  else (.ok (), st)

/-- The `RAG` prelude step of `run` (lines 223-226 together with
`query_long_term_memory`, lines 377-397). -/
def ragStep (hasLTM : Bool) (env : Env) (task : String) (st : RunState) :
    Except AgentError Unit × RunState :=
  if hasLTM then
    match env.rag st.rag_calls with
    | .error e => (.error e, { st with rag_calls := st.rag_calls + 1 })
    | .ok doc =>
      (.ok (), memAdd { st with rag_calls := st.rag_calls + 1 } task
        ⟨.user "[RAG] Database", "Documents Available: " ++ doc⟩)
  else (.ok (), st)

/-- The guarded checkpoint of `run` (lines 228-231 and 297-300). -/
def autosaveStep (cfg : AgentConfig) (env : Env) (st : RunState) :
    Except AgentError Unit × RunState :=
  if cfg.autosave then save_task_state cfg env st else (.ok (), st)

/-- The initial run state. -/
def initRunState : RunState := ⟨[], 0, 0, 0, 0⟩

/-- Model of `RigAgent::run` (lines 203-307): ingest the task as a user
message, optionally plan, optionally retrieve long-term memory, optionally
checkpoint, run the main loop, optionally checkpoint again, and return the
concatenation of all assistant responses. -/
def run (cfg : AgentConfig) (hasLTM : Bool) (env : Env) (task : String) :
    Except AgentError String × RunState :=
  let st0 := memAdd initRunState task ⟨.user cfg.user_name, task⟩
  match planStep cfg env task st0 with
  | (.error e, st) => (.error e, st)
  | (.ok _, st1) =>
    match ragStep hasLTM env task st1 with
    | (.error e, st) => (.error e, st)
    | (.ok _, st2) =>
      match autosaveStep cfg env st2 with
      | (.error e, st) => (.error e, st)
      | (.ok _, st3) =>
        let ls := mainLoop cfg hasLTM env task cfg.max_loops ⟨st3, "", []⟩
        match autosaveStep cfg env ls.st with
        | (.error e, st) => (.error e, st)
        | (.ok _, st4) => (.ok (String.join ls.all_responses), st4)

theorem handle_error_fields (cfg : AgentConfig) (env : Env) (st : RunState) :
    (handle_error_in_attempts cfg env st).memory = st.memory ∧
    (handle_error_in_attempts cfg env st).chat_calls = st.chat_calls ∧
    (handle_error_in_attempts cfg env st).rag_calls = st.rag_calls := by
  unfold handle_error_in_attempts save_task_state
  by_cases h : cfg.autosave
  · rw [if_pos h]
    cases cfg.save_sate_path with
    | none => exact ⟨rfl, rfl, rfl⟩
    | some p =>
      cases env.save st.save_calls with
      | ok u => exact ⟨rfl, rfl, rfl⟩
      | error e => exact ⟨rfl, rfl, rfl⟩
  · rw [if_neg h]; exact ⟨rfl, rfl, rfl⟩

theorem attemptsLoop_all_fail (cfg : AgentConfig) (env : Env) (task taskPrompt : String)
    (hchat : ∀ k, ∃ e, env.chat k = .error e) :
    ∀ n ls, (attemptsLoop cfg false env task taskPrompt n ls).1 = false ∧
      (attemptsLoop cfg false env task taskPrompt n ls).2.st.chat_calls =
        ls.st.chat_calls + n ∧
      (attemptsLoop cfg false env task taskPrompt n ls).2.st.memory = ls.st.memory ∧
      (attemptsLoop cfg false env task taskPrompt n ls).2.all_responses =
        ls.all_responses := by
  intro n
  induction n with
  | zero => intro ls; exact ⟨rfl, rfl, rfl, rfl⟩
  | succ m ih =>
    intro ls
    obtain ⟨e, he⟩ := hchat ls.st.chat_calls
    have hstep : attemptStep cfg false env task taskPrompt ls =
        (false, { ls with
          st := handle_error_in_attempts cfg env
            { ls.st with chat_calls := ls.st.chat_calls + 1 } }) := by
      unfold attemptStep chatStep
      simp only [Bool.false_and, Bool.false_eq_true, if_false, he]
    have hred : attemptsLoop cfg false env task taskPrompt (m + 1) ls =
        attemptsLoop cfg false env task taskPrompt m
          { ls with
            st := handle_error_in_attempts cfg env
              { ls.st with chat_calls := ls.st.chat_calls + 1 } } := by
      conv_lhs => rw [attemptsLoop]
      rw [hstep]
    rw [hred]
    obtain ⟨i1, i2, i3, i4⟩ := ih { ls with
      st := handle_error_in_attempts cfg env
        { ls.st with chat_calls := ls.st.chat_calls + 1 } }
    obtain ⟨hm, hc, -⟩ := handle_error_fields cfg env
      { ls.st with chat_calls := ls.st.chat_calls + 1 }
    refine ⟨i1, ?_, ?_, i4⟩
    · rw [i2]
      simp only [hc]
      omega
    · rw [i3]
      simpa using hm

theorem autosaveStep_ok (cfg : AgentConfig) (env : Env) (st : RunState)
    (hsave : ∀ k, env.save k = .ok ()) :
    ∃ st', autosaveStep cfg env st = (.ok (), st') ∧
      st'.chat_calls = st.chat_calls ∧ st'.memory = st.memory ∧
      st'.rag_calls = st.rag_calls := by
  unfold autosaveStep save_task_state
  by_cases h : cfg.autosave
  · rw [if_pos h]
    cases cfg.save_sate_path with
    | none => exact ⟨st, rfl, rfl, rfl, rfl⟩
    | some p =>
      rw [hsave st.save_calls]
      exact ⟨_, rfl, rfl, rfl, rfl⟩
  · rw [if_neg h]; exact ⟨st, rfl, rfl, rfl, rfl⟩

/-- C1: for an agent with planning disabled, no long-term memory,
`retry_attempts = R ≥ 1` and `max_loops = L ≥ 1`, when every model
completion call fails (and persistence succeeds), `run(task)` issues
exactly `R` model calls in total — not `R · L` — and returns `Ok` with the
empty concatenation of accumulated responses instead of an error. -/
theorem c1_retry_bound (cfg : AgentConfig) (env : Env) (task : String)
    (hplan : cfg.plan_enabled = false)
    (hR : 1 ≤ cfg.retry_attempts) (hL : 1 ≤ cfg.max_loops)
    (hchat : ∀ k, ∃ e, env.chat k = .error e)
    (hsave : ∀ k, env.save k = .ok ()) :
    (run cfg false env task).1 = .ok "" ∧
    (run cfg false env task).2.chat_calls = cfg.retry_attempts := by
  have hps : planStep cfg env task (memAdd initRunState task ⟨.user cfg.user_name, task⟩) =
      (.ok (), memAdd initRunState task ⟨.user cfg.user_name, task⟩) := by
    unfold planStep
    simp only [hplan, Bool.false_eq_true, if_false]
  have hrs : ∀ st, ragStep false env task st = (.ok (), st) := by
    intro st
    unfold ragStep
    simp only [Bool.false_eq_true, if_false]
  obtain ⟨st3, hsv, hc3, hm3, hr3⟩ :=
    autosaveStep_ok cfg env (memAdd initRunState task ⟨.user cfg.user_name, task⟩) hsave
  obtain ⟨m, hm⟩ : ∃ m, cfg.max_loops = m + 1 := ⟨cfg.max_loops - 1, by omega⟩
  obtain ⟨a1, a2, a3, a4⟩ := attemptsLoop_all_fail cfg env task
    (formatConversation ((Swarms.alookup task st3.memory).getD []))
    hchat cfg.retry_attempts ⟨st3, "", []⟩
  have heq : attemptsLoop cfg false env task
      (formatConversation ((Swarms.alookup task st3.memory).getD []))
      cfg.retry_attempts ⟨st3, "", []⟩ =
      (false, (attemptsLoop cfg false env task
        (formatConversation ((Swarms.alookup task st3.memory).getD []))
        cfg.retry_attempts ⟨st3, "", []⟩).2) := by
    exact Prod.ext_iff.mpr ⟨a1, rfl⟩
  have hmain : mainLoop cfg false env task (m + 1) ⟨st3, "", []⟩ =
      (attemptsLoop cfg false env task
        (formatConversation ((Swarms.alookup task st3.memory).getD []))
        cfg.retry_attempts ⟨st3, "", []⟩).2 := by
    conv_lhs => rw [mainLoop]
    dsimp only
    rw [heq]
  obtain ⟨st4, hsv2, hc4, -, -⟩ := autosaveStep_ok cfg env
    (mainLoop cfg false env task cfg.max_loops ⟨st3, "", []⟩).st hsave
  simp only [run, hps, hrs, hsv, hsv2]
  rw [hm] at hsv2 ⊢
  rw [hmain] at hsv2 ⊢
  constructor
  · rw [a4]
    rfl
  · rw [hm] at hc4
    rw [hmain] at hc4
    rw [hc4, a2]
    simp only [hc3]
    simp [memAdd, initRunState]

/-- Witness for C1 at a concrete configuration (three retry attempts, two
loops) and an always-failing model. -/
theorem c1_retry_bound_witness :
    (run ⟨"agent", "user", 2, 3, false, none, false, false, none, []⟩ false
      ⟨fun _ => .error .modelError, fun _ => .ok (), fun _ => .ok "",
        fun _ => .ok ""⟩ "task").1 = .ok "" ∧
    (run ⟨"agent", "user", 2, 3, false, none, false, false, none, []⟩ false
      ⟨fun _ => .error .modelError, fun _ => .ok (), fun _ => .ok "",
        fun _ => .ok ""⟩ "task").2.chat_calls = 3 := by
  have h := c1_retry_bound
    ⟨"agent", "user", 2, 3, false, none, false, false, none, []⟩
    ⟨fun _ => .error .modelError, fun _ => .ok (), fun _ => .ok "", fun _ => .ok ""⟩
    "task" rfl (by decide) (by decide)
    (fun k => ⟨.modelError, rfl⟩) (fun k => rfl)
  exact h

theorem planStep_ok (cfg : AgentConfig) (env : Env) (task : String) (st : RunState)
    (hplan : ∀ k, ∃ t, env.plan_text k = .ok t) :
    ∃ st', planStep cfg env task st = (.ok (), st') ∧
      st'.chat_calls = st.chat_calls := by
  unfold planStep
  by_cases h : cfg.plan_enabled
  · rw [if_pos h]
    cases cfg.planning_prompt with
    | none => exact ⟨st, rfl, rfl⟩
    | some pp =>
      obtain ⟨t, ht⟩ := hplan st.plan_calls
      rw [ht]
      exact ⟨_, rfl, rfl⟩
  · rw [if_neg h]; exact ⟨st, rfl, rfl⟩

theorem ragStep_ok (hasLTM : Bool) (env : Env) (task : String) (st : RunState)
    (hrag : ∀ k, ∃ d, env.rag k = .ok d) :
    ∃ st', ragStep hasLTM env task st = (.ok (), st') ∧
      st'.chat_calls = st.chat_calls := by
  unfold ragStep
  cases hasLTM with
  | false => exact ⟨st, rfl, rfl⟩
  | true =>
    obtain ⟨d, hd⟩ := hrag st.rag_calls
    rw [if_pos rfl, hd]
    exact ⟨_, rfl, rfl⟩

theorem chatStep_ok (cfg : AgentConfig) (env : Env) (task : String) (ls : LoopState)
    (f : Nat → String) (hchat : ∀ k, env.chat k = .ok (f k)) :
    chatStep cfg env task ls =
      (true, ⟨memAdd { ls.st with chat_calls := ls.st.chat_calls + 1 } task
        ⟨.assistant cfg.name, f ls.st.chat_calls⟩, f ls.st.chat_calls,
        ls.all_responses ++ [f ls.st.chat_calls]⟩) := by
  unfold chatStep
  rw [hchat ls.st.chat_calls]

theorem attemptStep_ok (cfg : AgentConfig) (hasLTM : Bool) (env : Env)
    (task taskPrompt : String) (ls : LoopState) (f : Nat → String)
    (hrag : ∀ k, ∃ d, env.rag k = .ok d)
    (hchat : ∀ k, env.chat k = .ok (f k)) :
    ∃ st', attemptStep cfg hasLTM env task taskPrompt ls =
      (true, ⟨st', f ls.st.chat_calls, ls.all_responses ++ [f ls.st.chat_calls]⟩) ∧
      st'.chat_calls = ls.st.chat_calls + 1 := by
  unfold attemptStep
  by_cases h : (hasLTM && cfg.rag_every_loop) = true
  · rw [if_pos h]
    obtain ⟨d, hd⟩ := hrag ls.st.rag_calls
    simp only [hd]
    rw [chatStep_ok cfg env task _ f hchat]
    exact ⟨_, rfl, rfl⟩
  · rw [if_neg h]
    rw [chatStep_ok cfg env task ls f hchat]
    exact ⟨_, rfl, rfl⟩

theorem attemptsLoop_first_ok (cfg : AgentConfig) (hasLTM : Bool) (env : Env)
    (task taskPrompt : String) (f : Nat → String)
    (hrag : ∀ k, ∃ d, env.rag k = .ok d)
    (hchat : ∀ k, env.chat k = .ok (f k))
    (n : Nat) (hn : 1 ≤ n) (ls : LoopState) :
    ∃ st', attemptsLoop cfg hasLTM env task taskPrompt n ls =
      (true, ⟨st', f ls.st.chat_calls, ls.all_responses ++ [f ls.st.chat_calls]⟩) ∧
      st'.chat_calls = ls.st.chat_calls + 1 := by
  obtain ⟨m, rfl⟩ : ∃ m, n = m + 1 := ⟨n - 1, by omega⟩
  obtain ⟨st', hstep, hc⟩ := attemptStep_ok cfg hasLTM env task taskPrompt ls f hrag hchat
  refine ⟨st', ?_, hc⟩
  conv_lhs => rw [attemptsLoop]
  rw [hstep]

theorem mainLoop_stops (cfg : AgentConfig) (hasLTM : Bool) (env : Env) (task : String)
    (f : Nat → String) (i : Nat)
    (hrag : ∀ k, ∃ d, env.rag k = .ok d)
    (hchat : ∀ k, env.chat k = .ok (f k))
    (hR : 1 ≤ cfg.retry_attempts)
    (hbefore : ∀ j, j < i → is_response_complete cfg (f j) = false)
    (hstop : is_response_complete cfg (f i) = true) :
    ∀ n ls, ls.st.chat_calls ≤ i → i < ls.st.chat_calls + n →
      (mainLoop cfg hasLTM env task n ls).st.chat_calls = i + 1 ∧
      (mainLoop cfg hasLTM env task n ls).all_responses =
        ls.all_responses ++
          (List.range' ls.st.chat_calls (i + 1 - ls.st.chat_calls)).map f := by
  intro n
  induction n with
  | zero => intro ls h1 h2; omega
  | succ m ih =>
    intro ls h1 h2
    obtain ⟨st', hstep, hc⟩ := attemptsLoop_first_ok cfg hasLTM env task
      (formatConversation ((Swarms.alookup task ls.st.memory).getD [])) f hrag hchat
      cfg.retry_attempts hR ls
    have hred : mainLoop cfg hasLTM env task (m + 1) ls =
        (if is_response_complete cfg (f ls.st.chat_calls) = true then
          (⟨st', f ls.st.chat_calls, ls.all_responses ++ [f ls.st.chat_calls]⟩ : LoopState)
        else mainLoop cfg hasLTM env task m
          ⟨st', f ls.st.chat_calls, ls.all_responses ++ [f ls.st.chat_calls]⟩) := by
      conv_lhs => rw [mainLoop]
      rw [hstep]
    rw [hred]
    rcases Nat.lt_or_ge ls.st.chat_calls i with hlt | hge
    · rw [if_neg (by rw [hbefore _ hlt]; exact Bool.false_ne_true)]
      obtain ⟨j1, j2⟩ := ih ⟨st', f ls.st.chat_calls,
          ls.all_responses ++ [f ls.st.chat_calls]⟩
        (by dsimp only; omega) (by dsimp only; omega)
      refine ⟨j1, ?_⟩
      rw [j2]
      dsimp only
      rw [hc]
      have harith : i + 1 - ls.st.chat_calls = (i - ls.st.chat_calls) + 1 := by omega
      have harith2 : i + 1 - (ls.st.chat_calls + 1) = i - ls.st.chat_calls := by omega
      rw [harith, harith2, List.range'_succ, List.map_cons, List.append_assoc]
      rfl
    · have hci : ls.st.chat_calls = i := Nat.le_antisymm h1 hge
      rw [hci, if_pos hstop]
      refine ⟨?_, ?_⟩
      · dsimp only
        rw [hc, hci]
      · dsimp only
        have : i + 1 - i = 1 := by omega
        rw [this]
        simp [List.range']

theorem is_response_complete_iff (cfg : AgentConfig) (r : String) :
    is_response_complete cfg r = true ↔
      ∃ w ∈ cfg.stop_words, w.data <:+: r.data := by
  simp [is_response_complete, List.any_eq_true]

/-- C5: for an agent whose model succeeds on every call, returning on loop
`i` (and first on loop `i`) a text containing some configured stop-word as
a substring, `run(task)` breaks the main loop after loop `i` and issues no
further model calls — exactly `i + 1` in total — even when
`i < max_loops`; and stop-word detection is exactly substring containment
of a configured stop-word in the last assistant text. -/
theorem c5_stop_word_halts (cfg : AgentConfig) (hasLTM : Bool) (env : Env)
    (task : String) (f : Nat → String) (i : Nat)
    (hplan : ∀ k, ∃ t, env.plan_text k = .ok t)
    (hsave : ∀ k, env.save k = .ok ())
    (hrag : ∀ k, ∃ d, env.rag k = .ok d)
    (hchat : ∀ k, env.chat k = .ok (f k))
    (hR : 1 ≤ cfg.retry_attempts)
    (hiL : i < cfg.max_loops)
    (hbefore : ∀ j, j < i → ∀ w ∈ cfg.stop_words, ¬(w.data <:+: (f j).data))
    (hstop : ∃ w ∈ cfg.stop_words, w.data <:+: (f i).data) :
    (run cfg hasLTM env task).2.chat_calls = i + 1 ∧
    (run cfg hasLTM env task).1 = .ok (String.join ((List.range (i + 1)).map f)) ∧
    (∀ r : String, is_response_complete cfg r = true ↔
      ∃ w ∈ cfg.stop_words, w.data <:+: r.data) := by
  have hbefore' : ∀ j, j < i → is_response_complete cfg (f j) = false := by
    intro j hj
    rw [← Bool.not_eq_true, is_response_complete_iff]
    rintro ⟨w, hw, hinf⟩
    exact hbefore j hj w hw hinf
  have hstop' : is_response_complete cfg (f i) = true :=
    (is_response_complete_iff cfg (f i)).mpr hstop
  obtain ⟨st1, hps, hc1⟩ := planStep_ok cfg env task
    (memAdd initRunState task ⟨.user cfg.user_name, task⟩) hplan
  obtain ⟨st2, hrs, hc2⟩ := ragStep_ok hasLTM env task st1 hrag
  obtain ⟨st3, hsv, hc3, -, -⟩ := autosaveStep_ok cfg env st2 hsave
  have hc30 : st3.chat_calls = 0 := by
    rw [hc3, hc2, hc1]
    rfl
  have hml := mainLoop_stops cfg hasLTM env task f i hrag hchat hR hbefore' hstop'
    cfg.max_loops ⟨st3, "", []⟩ (by dsimp only; omega) (by dsimp only; omega)
  obtain ⟨m1, m2⟩ := hml
  obtain ⟨st4, hsv2, hc4, -, -⟩ := autosaveStep_ok cfg env
    (mainLoop cfg hasLTM env task cfg.max_loops ⟨st3, "", []⟩).st hsave
  simp only [run, hps, hrs, hsv, hsv2]
  refine ⟨?_, ?_, is_response_complete_iff cfg⟩
  · rw [hc4, m1]
  · rw [m2]
    dsimp only
    rw [hc30, List.nil_append]
    rw [show List.range' 0 (i + 1 - 0) = List.range (i + 1) by
      rw [Nat.sub_zero, List.range_eq_range']]

/-- Witness for C5: stop-word `<DONE>` appears on loop 1 of 3; the agent
issues exactly 2 model calls and returns the two responses concatenated. -/
theorem c5_stop_word_halts_witness :
    (run ⟨"a", "u", 3, 1, false, none, false, false, none, ["<DONE>"]⟩ false
      ⟨fun k => .ok (if k = 1 then "step <DONE>" else "go"), fun _ => .ok (),
        fun _ => .ok "", fun _ => .ok ""⟩ "t").2.chat_calls = 2 ∧
    (run ⟨"a", "u", 3, 1, false, none, false, false, none, ["<DONE>"]⟩ false
      ⟨fun k => .ok (if k = 1 then "step <DONE>" else "go"), fun _ => .ok (),
        fun _ => .ok "", fun _ => .ok ""⟩ "t").1 = .ok "gostep <DONE>" := by
  have h := c5_stop_word_halts
    ⟨"a", "u", 3, 1, false, none, false, false, none, ["<DONE>"]⟩ false
    ⟨fun k => .ok (if k = 1 then "step <DONE>" else "go"), fun _ => .ok (),
      fun _ => .ok "", fun _ => .ok ""⟩ "t"
    (fun k => if k = 1 then "step <DONE>" else "go") 1
    (fun k => ⟨"", rfl⟩) (fun k => rfl) (fun k => ⟨"", rfl⟩) (fun k => rfl)
    (by decide) (by decide)
    (by decide)
    (by decide)
  refine ⟨h.1, ?_⟩
  rw [h.2.1]
  rfl

theorem alookup_memoryAdd_self (k : String) (m : Message)
    (l : List (String × List Message)) :
    Swarms.alookup k (memoryAdd k m l) =
      some ((Swarms.alookup k l).getD [] ++ [m]) := by
  induction l with
  | nil => simp [memoryAdd, Swarms.alookup]
  | cons p rest ih =>
    obtain ⟨k', conv⟩ := p
    by_cases h : k' = k
    · subst h
      simp [memoryAdd, Swarms.alookup]
    · simp [memoryAdd, Swarms.alookup, h, ih]

end AgentRt

/-! ## Concurrent workflow: `ConcurrentWorkflow::run`
(src/swarms-rs/src/concurrent_workflow.rs lines 99-174)

Each agent's outcome on a task is its behavior function; the unordered
fan-in of the mpsc channel is modelled by an explicit arrival list, which
the claims tie to the agents' outcomes by a permutation hypothesis.  The
workflow-scoped conversation reuses the short-term-memory model; the
persistence primitive (missing `persistence` module; modelled from the
spec, section 4.1: a successful save leaves the file holding exactly the
given bytes) records the serialized metadata under its path. -/

namespace CW

/-- An agent as the concurrent workflow sees it: a name and the outcome of
`run(task)`. -/
structure AgentSpec where
  name : String
  behavior : String → Except Unit String

/-- The workflow fields read by `run`. -/
structure Workflow where
  name : String
  description : String
  metadata_output_dir : String
  agents : List AgentSpec

/-- Modelled from the spec: `AgentOutputSchema` of the missing `utils`
module's `run_agent_with_output_schema`, restricted to the fields the
claims mention (`run_id` and the timing fields are environment-supplied
and not observable here). -/
structure AgentOutputSchema where
  agent_name : String
  task : String
  output : String
deriving DecidableEq, Repr

/-- Modelled from the spec: `run_agent_with_output_schema` runs one agent
on the task and wraps a successful output in an `AgentOutputSchema`. -/
def runAgentWithOutputSchema (a : AgentSpec) (task : String) :
    Except Unit AgentOutputSchema :=
  match a.behavior task with
  | .error e => .error e
  | .ok out => .ok ⟨a.name, task, out⟩

/-- `MetadataSchema` (src/swarms-rs/src/swarm.rs), restricted to the
fields the claims mention (`swarm_id` and `timestamp` are
environment-supplied). -/
structure MetadataSchema where
  task : String
  description : String
  agents_output_schema : List AgentOutputSchema
deriving DecidableEq, Repr

/-- Observable state of one workflow: the submitted-task set, the
workflow-scoped conversation, the metadata map and the persisted files. -/
structure CwState where
  tasks : List String
  conversation : List (String × List AgentRt.Message)
  metadata_map : List (String × MetadataSchema)
  files : List (String × MetadataSchema)

/-- `ConcurrentWorkflowError` cases produced by `run` itself. -/
inductive CwError where
  | emptyTasksOrAgents
  | taskAlreadyExists
deriving DecidableEq, Repr

/-- The metadata file path `{metadata_output_dir}/{task_digest}.json`. -/
def metadataPath (xxh3 : List UInt8 → Nat) (wf : Workflow) (task : String) : String :=
  wf.metadata_output_dir ++ "/" ++ Digest.workflow_task_digest xxh3 task ++ ".json"

/-- The schemas of the agents that succeed on `task`, in registration
order; the channel delivers a permutation of these. -/
def successSchemas (wf : Workflow) (task : String) : List AgentOutputSchema :=
  wf.agents.filterMap fun a => (runAgentWithOutputSchema a task).toOption

/-- Model of `ConcurrentWorkflow::run` (lines 99-174): reject an empty
task or empty agent list, reject a task already submitted, record the user
message, append one assistant message per arriving agent output (arrival
order), assemble and persist the `MetadataSchema`, and return the
accumulated conversation. -/
def run (xxh3 : List UInt8 → Nat) (wf : Workflow) (st : CwState) (task : String)
    (arrival : List AgentOutputSchema) :
    Except CwError (List AgentRt.Message) × CwState :=
  if task.isEmpty || wf.agents.isEmpty then (.error .emptyTasksOrAgents, st)
  else if task ∈ st.tasks then (.error .taskAlreadyExists, st)
  else
    (.ok ((Swarms.alookup task
        (arrival.foldl
          (fun conv o => AgentRt.memoryAdd task ⟨.assistant o.agent_name, o.output⟩ conv)
          (AgentRt.memoryAdd task ⟨.user "User", task⟩ st.conversation))).getD []),
      { tasks := task :: st.tasks,
        conversation := arrival.foldl
          (fun conv o => AgentRt.memoryAdd task ⟨.assistant o.agent_name, o.output⟩ conv)
          (AgentRt.memoryAdd task ⟨.user "User", task⟩ st.conversation),
        metadata_map := Swarms.aset task ⟨task, wf.description, arrival⟩ st.metadata_map,
        files := Swarms.aset (metadataPath xxh3 wf task)
          ⟨task, wf.description, arrival⟩ st.files })

theorem alookup_fold_memoryAdd (task : String) (arrival : List AgentOutputSchema) :
    ∀ (conv : List (String × List AgentRt.Message)) (l : List AgentRt.Message),
      Swarms.alookup task conv = some l →
      Swarms.alookup task (arrival.foldl
        (fun conv o =>
          AgentRt.memoryAdd task ⟨.assistant o.agent_name, o.output⟩ conv) conv) =
      some (l ++
        arrival.map fun o => (⟨.assistant o.agent_name, o.output⟩ : AgentRt.Message)) := by
  induction arrival with
  | nil =>
    intro conv l h
    simpa using h
  | cons o rest ih =>
    intro conv l h
    simp only [List.foldl_cons]
    rw [ih _ (l ++ [⟨.assistant o.agent_name, o.output⟩])
      (by rw [AgentRt.alookup_memoryAdd_self, h]; rfl)]
    simp

/-- C3: `run` returns `EmptyTasksOrAgents` for an empty task or an empty
agent list, and returns `TaskAlreadyExists` on a second submission of a
task whose first submission succeeded; in both error cases the returned
state is exactly the pre-call state, so nothing is appended to the
conversation and no metadata file is written. -/
theorem c3_error_paths (xxh3 : List UInt8 → Nat) (wf : Workflow) (st : CwState)
    (task : String) (arrival arrivalB : List AgentOutputSchema) :
    ((task.isEmpty || wf.agents.isEmpty) = true →
      run xxh3 wf st task arrival = (.error .emptyTasksOrAgents, st)) ∧
    (∀ conv st', run xxh3 wf st task arrival = (.ok conv, st') →
      run xxh3 wf st' task arrivalB = (.error .taskAlreadyExists, st')) := by
  constructor
  · intro h
    unfold run
    rw [if_pos h]
  · intro conv st' h
    unfold run at h ⊢
    by_cases h1 : (task.isEmpty || wf.agents.isEmpty) = true
    · rw [if_pos h1] at h
      exact absurd h (by simp)
    · rw [if_neg h1] at h
      rw [if_neg h1]
      by_cases h2 : task ∈ st.tasks
      · rw [if_pos h2] at h
        exact absurd h (by simp)
      · rw [if_neg h2] at h
        have hsnd := congrArg Prod.snd h
        dsimp only at hsnd
        rw [← hsnd]
        rw [if_pos (List.mem_cons_self task st.tasks)]

/-- C4: with `N ≥ 1` agents of which exactly the `successSchemas` succeed
on a fresh task, `run` succeeds; the returned conversation is one `User`
message carrying the task followed by one `Assistant` message per arriving
(successful) agent, `K + 1` messages in total; the persisted metadata
holds exactly `K` `AgentOutputSchema` entries; and failing agents appear
in neither. -/
theorem c4_fan_in (xxh3 : List UInt8 → Nat) (wf : Workflow) (st : CwState)
    (task : String) (arrival : List AgentOutputSchema)
    (htask : task.isEmpty = false)
    (hagents : wf.agents.isEmpty = false)
    (hfresh : task ∉ st.tasks)
    (hconv : Swarms.alookup task st.conversation = none)
    (hnodup : (wf.agents.map fun a => a.name).Nodup)
    (hperm : arrival.Perm (successSchemas wf task)) :
    ∃ st', run xxh3 wf st task arrival =
      (.ok ((⟨.user "User", task⟩ : AgentRt.Message) ::
        (arrival.map fun o =>
          (⟨.assistant o.agent_name, o.output⟩ : AgentRt.Message))), st') ∧
      ((⟨.user "User", task⟩ : AgentRt.Message) ::
        (arrival.map fun o =>
          (⟨.assistant o.agent_name, o.output⟩ : AgentRt.Message))).length =
        (successSchemas wf task).length + 1 ∧
      Swarms.alookup (metadataPath xxh3 wf task) st'.files =
        some ⟨task, wf.description, arrival⟩ ∧
      (∀ md, Swarms.alookup (metadataPath xxh3 wf task) st'.files = some md →
        md.agents_output_schema.length = (successSchemas wf task).length) ∧
      (∀ a ∈ wf.agents, a.behavior task = .error () →
        (∀ o ∈ arrival, o.agent_name ≠ a.name) ∧
        (∀ m ∈ (arrival.map fun o =>
            (⟨.assistant o.agent_name, o.output⟩ : AgentRt.Message)),
          m.role ≠ .assistant a.name)) := by
  have habsent : ∀ a ∈ wf.agents, a.behavior task = .error () →
      ∀ o ∈ arrival, o.agent_name ≠ a.name := by
    intro a ha hfail o ho hname
    have hos : o ∈ successSchemas wf task := hperm.mem_iff.mp ho
    obtain ⟨b, hb, hbo⟩ := List.mem_filterMap.mp hos
    have hbok : ∃ out, b.behavior task = .ok out ∧ o.agent_name = b.name := by
      unfold runAgentWithOutputSchema at hbo
      cases hbb : b.behavior task with
      | error e => rw [hbb] at hbo; simp [Except.toOption] at hbo
      | ok out =>
        rw [hbb] at hbo
        simp only [Except.toOption, Option.some.injEq] at hbo
        exact ⟨out, rfl, by rw [← hbo]⟩
    obtain ⟨out, hbok', hbname⟩ := hbok
    have hab : b = a := List.inj_on_of_nodup_map hnodup hb ha (by rw [← hbname, hname])
    rw [hab, hfail] at hbok'
    exact absurd hbok' (by simp)
  have hguard : (task.isEmpty || wf.agents.isEmpty) = false := by
    rw [htask, hagents]; rfl
  have hbase : Swarms.alookup task
      (AgentRt.memoryAdd task ⟨.user "User", task⟩ st.conversation) =
      some [⟨.user "User", task⟩] := by
    rw [AgentRt.alookup_memoryAdd_self, hconv]
    rfl
  have hfold := alookup_fold_memoryAdd task arrival
    (AgentRt.memoryAdd task ⟨.user "User", task⟩ st.conversation)
    [⟨.user "User", task⟩] hbase
  refine ⟨(⟨task :: st.tasks,
      arrival.foldl
        (fun conv o => AgentRt.memoryAdd task ⟨.assistant o.agent_name, o.output⟩ conv)
        (AgentRt.memoryAdd task ⟨.user "User", task⟩ st.conversation),
      Swarms.aset task ⟨task, wf.description, arrival⟩ st.metadata_map,
      Swarms.aset (metadataPath xxh3 wf task)
        ⟨task, wf.description, arrival⟩ st.files⟩ : CwState), ?_, ?_, ?_, ?_, ?_⟩
  · unfold run
    rw [if_neg (by rw [hguard]; exact Bool.false_ne_true), if_neg hfresh, hfold]
    rfl
  · simp only [List.length_cons, List.length_map]
    rw [hperm.length_eq]
  · dsimp only
    exact Swarms.alookup_aset_self _ _ _
  · intro md hmd
    dsimp only at hmd
    rw [Swarms.alookup_aset_self] at hmd
    cases hmd
    simp only
    exact hperm.length_eq
  · intro a ha hfail
    refine ⟨habsent a ha hfail, ?_⟩
    intro m hm
    obtain ⟨o, ho, rfl⟩ := List.mem_map.mp hm
    intro hc
    simp only [AgentRt.Role.assistant.injEq] at hc
    exact habsent a ha hfail o ho hc

/-- Witness for C3: the empty task is rejected with the state unchanged,
and resubmitting a task after a successful run yields `TaskAlreadyExists`
with the state unchanged. -/
theorem c3_error_paths_witness :
    run (fun _ => 7) ⟨"wf", "d", "out", [⟨"A1", fun _ => .ok "a1"⟩]⟩
      ⟨[], [], [], []⟩ "" [] =
      (.error .emptyTasksOrAgents, ⟨[], [], [], []⟩) ∧
    run (fun _ => 7) ⟨"wf", "d", "out", [⟨"A1", fun _ => .ok "a1"⟩]⟩
      ⟨["T"], [("T", [⟨.user "User", "T"⟩])], [("T", ⟨"T", "d", []⟩)],
        [(metadataPath (fun _ => 7) ⟨"wf", "d", "out", [⟨"A1", fun _ => .ok "a1"⟩]⟩ "T",
          ⟨"T", "d", []⟩)]⟩ "T" [] =
      (.error .taskAlreadyExists,
        ⟨["T"], [("T", [⟨.user "User", "T"⟩])], [("T", ⟨"T", "d", []⟩)],
          [(metadataPath (fun _ => 7) ⟨"wf", "d", "out", [⟨"A1", fun _ => .ok "a1"⟩]⟩ "T",
            ⟨"T", "d", []⟩)]⟩) := by
  constructor
  · exact (c3_error_paths (fun _ => 7) ⟨"wf", "d", "out", [⟨"A1", fun _ => .ok "a1"⟩]⟩
      ⟨[], [], [], []⟩ "" [] []).1 rfl
  · exact (c3_error_paths (fun _ => 7) ⟨"wf", "d", "out", [⟨"A1", fun _ => .ok "a1"⟩]⟩
      ⟨[], [], [], []⟩ "T" [] []).2 [⟨.user "User", "T"⟩] _ rfl

/-- Witness for C4: three agents, two succeed, one fails; the channel
delivers the two successes out of registration order. -/
theorem c4_fan_in_witness :
    ∃ st', run (fun _ => 7)
      ⟨"wf", "d", "out", [⟨"A1", fun _ => .ok "a1"⟩, ⟨"A2", fun _ => .error ()⟩,
        ⟨"A3", fun _ => .ok "a3"⟩]⟩
      ⟨[], [], [], []⟩ "T" [⟨"A3", "T", "a3"⟩, ⟨"A1", "T", "a1"⟩] =
      (.ok [⟨.user "User", "T"⟩, ⟨.assistant "A3", "a3"⟩, ⟨.assistant "A1", "a1"⟩],
        st') ∧
    Swarms.alookup (metadataPath (fun _ => 7)
        ⟨"wf", "d", "out", [⟨"A1", fun _ => .ok "a1"⟩, ⟨"A2", fun _ => .error ()⟩,
          ⟨"A3", fun _ => .ok "a3"⟩]⟩ "T") st'.files =
      some ⟨"T", "d", [⟨"A3", "T", "a3"⟩, ⟨"A1", "T", "a1"⟩]⟩ := by
  obtain ⟨st', h1, h2, h3, h4, h5⟩ := c4_fan_in (fun _ => 7)
    ⟨"wf", "d", "out", [⟨"A1", fun _ => .ok "a1"⟩, ⟨"A2", fun _ => .error ()⟩,
      ⟨"A3", fun _ => .ok "a3"⟩]⟩
    ⟨[], [], [], []⟩ "T" [⟨"A3", "T", "a3"⟩, ⟨"A1", "T", "a1"⟩]
    rfl rfl (by simp) rfl (by decide)
    (by decide)
  exact ⟨st', h1, h3⟩

end CW

/-! ## Graph workflow: `AgentRearrange`
(src/swarms-rs/src/graph_workflow.rs)

`petgraph::StableGraph` is modelled by a slot vector: removing a node
vacates its slot (indices stay stable) and pushes the index on a free
list; adding reuses the most recently freed slot.  `node_count` counts the
occupied slots, as in petgraph, while indices range over the whole slot
vector.  Outgoing edges iterate most-recently-added first, as petgraph's
adjacency lists do.  Out-of-bounds vector indexing inside `has_cycle`
(a Rust panic) is modelled by `none`. -/

namespace GW

/-- Errors of `AgentRearrangeError`. The `outOfFuel` constructor is a
model artifact standing for non-termination of the recursive execution;
it is unreachable at the fuel values the theorems use. -/
inductive GWError where
  | agentError (msg : String)
  | agentNotFound (msg : String)
  | cycleDetected
  | outOfFuel
deriving DecidableEq, Repr

/-- `Flow`: optional transform and condition on an edge. -/
structure Flow where
  transform : Option (String → String)
  condition : Option (String → Bool)

/-- The default `Flow` with no transform and no condition. -/
def defaultFlow : Flow := ⟨none, none⟩

/-- `AgentNode`: node weight with agent name and cached result. -/
structure AgentNode where
  name : String
  last_result : Option (Except GWError String)

/-- A stable-graph edge: stable id, endpoints, weight. -/
structure EdgeRec where
  eid : Nat
  src : Nat
  tgt : Nat
  flow : Flow

/-- The `StableGraph<AgentNode, Flow>`: slots with stable indices, node
and edge free lists, edges in insertion order. -/
structure WG where
  slots : List (Option AgentNode)
  node_free : List Nat
  edges : List EdgeRec
  edge_free : List Nat
  next_edge : Nat

/-- The empty graph (`StableGraph::new`). -/
def emptyWG : WG := ⟨[], [], [], [], 0⟩

/-- `node_count`: the number of occupied slots. -/
def node_count (g : WG) : Nat := (g.slots.filter (fun s => s.isSome)).length

/-- `node_indices`: the stable indices of the occupied slots, ascending. -/
def node_indices (g : WG) : List Nat :=
  (List.range g.slots.length).filter (fun i => ((g.slots.get? i).getD none).isSome)

/-- `add_node`: reuse the most recently freed slot, else append. -/
def add_node (g : WG) (node : AgentNode) : Nat × WG :=
  match g.node_free with
  | i :: rest => (i, { g with slots := g.slots.set i (some node), node_free := rest })
  | [] => (g.slots.length, { g with slots := g.slots ++ [some node] })

/-- `add_edge`: reuse the most recently freed edge id, else a fresh one. -/
def add_edge (g : WG) (src tgt : Nat) (flow : Flow) : Nat × WG :=
  match g.edge_free with
  | i :: rest => (i, { g with edges := g.edges ++ [⟨i, src, tgt, flow⟩], edge_free := rest })
  | [] => (g.next_edge,
      { g with
        edges := g.edges ++ [⟨g.next_edge, src, tgt, flow⟩],
        next_edge := g.next_edge + 1 })

/-- `remove_edge` by edge id. -/
def remove_edge (g : WG) (eid : Nat) : WG :=
  { g with
    edges := g.edges.filter (fun e => e.eid ≠ eid),
    edge_free := eid :: g.edge_free }

/-- `remove_node`: vacate the slot, free its index, drop incident edges. -/
def remove_node (g : WG) (i : Nat) : WG :=
  { g with
    slots := g.slots.set i none,
    node_free := i :: g.node_free,
    edges := g.edges.filter (fun e => e.src ≠ i ∧ e.tgt ≠ i),
    edge_free := (g.edges.filter (fun e => e.src = i ∨ e.tgt = i)).map (fun e => e.eid)
      ++ g.edge_free }

/-- Outgoing edges of a node in petgraph iteration order: most recently
added first. -/
def outEdges (g : WG) (i : Nat) : List EdgeRec :=
  (g.edges.filter (fun e => e.src = i)).reverse

/-- `neighbors_directed(node, Outgoing)` in iteration order. -/
def outNeighbors (g : WG) (i : Nat) : List Nat :=
  (outEdges g i).map (fun e => e.tgt)

mutual

/-- Model of `is_cyclic_util` (lines 120-141): mark the node visited and
on the recursion stack, scan its outgoing neighbors, unmark the stack bit
on exit.  `none` models the Rust panic of an out-of-bounds vector index
(`visited` and `rec_stack` have length `node_count`, while stable indices
may be larger); the fuel only bounds the recursion depth and exceeds it at
every call site. -/
def dfsVisit (g : WG) : Nat → Nat → List Bool → List Bool →
    Option (Bool × List Bool × List Bool)
  | 0, _, _, _ => none
  | fuel + 1, node, visited, rst =>
    if node < visited.length ∧ node < rst.length then
      match dfsNeighbors g fuel (outNeighbors g node)
          (visited.set node true) (rst.set node true) with
      | none => none
      | some (true, v2, r2) => some (true, v2, r2)
      | some (false, v2, r2) => some (false, v2, r2.set node false)
    else none
termination_by fuel node v r => (fuel, 0)

/-- The neighbor loop of `is_cyclic_util`: recurse into unvisited
neighbors, report a cycle when a neighbor is on the recursion stack. -/
def dfsNeighbors (g : WG) : Nat → List Nat → List Bool → List Bool →
    Option (Bool × List Bool × List Bool)
  | _, [], visited, rst => some (false, visited, rst)
  | fuel, n :: rest, visited, rst =>
    match visited.get? n with
    | none => none
    | some true =>
      match rst.get? n with
      | none => none
      | some true => some (true, visited, rst)
      | some false => dfsNeighbors g fuel rest visited rst
    | some false =>
      match dfsVisit g fuel n visited rst with
      | none => none
      | some (true, v2, r2) => some (true, v2, r2)
      | some (false, v2, r2) => dfsNeighbors g fuel rest v2 r2
termination_by fuel l v r => (fuel, l.length + 1)

end

/-- The outer loop of `has_cycle` (lines 112-117). -/
def hasCycleOuter (g : WG) : List Nat → List Bool → List Bool → Option Bool
  | [], _, _ => some false
  | node :: rest, visited, rst =>
    match visited.get? node with
    | none => none
    | some true => hasCycleOuter g rest visited rst
    | some false =>
      match dfsVisit g (g.slots.length + 1) node visited rst with
      | none => none
      | some (true, _, _) => some true
      | some (false, v2, r2) => hasCycleOuter g rest v2 r2

/-- Model of `has_cycle` (lines 107-118): DFS over all node indices with
`visited` and `rec_stack` vectors of length `node_count`. -/
def has_cycle (g : WG) : Option Bool :=
  hasCycleOuter g (node_indices g)
    (List.replicate (node_count g) false) (List.replicate (node_count g) false)

/-- The orchestrator state: registered agents (name to behavior), the
workflow graph, and the name-to-node map. -/
structure AR where
  agents : List (String × (String → Except String String))
  workflow : WG
  name_to_node : List (String × Nat)

/-- `AgentRearrange::new`. -/
def newAR : AR := ⟨[], emptyWG, []⟩

/-- Model of `register_agent` (lines 41-53). -/
def register_agent (ar : AR) (name : String)
    (beh : String → Except String String) : AR :=
  let agents := Swarms.aset name beh ar.agents
  match Swarms.alookup name ar.name_to_node with
  | some _ => { ar with agents := agents }
  | none =>
    let p := add_node ar.workflow ⟨name, none⟩
    { agents := agents, workflow := p.2
      , name_to_node := Swarms.aset name p.1 ar.name_to_node }

/-- Model of `connect_agents` (lines 56-104): check both agents exist,
resolve (or create) their nodes, insert the edge, run the cycle check, and
on a detected cycle remove the edge again and fail with `CycleDetected`.
`none` models a panic inside `has_cycle`. -/
def connect_agents (ar : AR) (src_name dst_name : String) (flow : Flow) :
    Option (Except GWError Nat × AR) :=
  if (Swarms.alookup src_name ar.agents).isNone then
    some (.error (.agentNotFound ("Source agent '" ++ src_name ++ "' not found")), ar)
  else if (Swarms.alookup dst_name ar.agents).isNone then
    some (.error (.agentNotFound ("Target agent '" ++ dst_name ++ "' not found")), ar)
  else
    let fp :=
      match Swarms.alookup src_name ar.name_to_node with
      | some i => (i, ar)
      | none =>
        let p := add_node ar.workflow ⟨src_name, none⟩
        (p.1, { ar with
          workflow := p.2,
          name_to_node := Swarms.aset src_name p.1 ar.name_to_node })
    let tp :=
      match Swarms.alookup dst_name fp.2.name_to_node with
      | some i => (i, fp.2)
      | none =>
        let p := add_node fp.2.workflow ⟨dst_name, none⟩
        (p.1, { fp.2 with
          workflow := p.2,
          name_to_node := Swarms.aset dst_name p.1 fp.2.name_to_node })
    let ep := add_edge tp.2.workflow fp.1 tp.1 flow
    match has_cycle ep.2 with
    | none => none
    | some true =>
      some (.error .cycleDetected, { tp.2 with workflow := remove_edge ep.2 ep.1 })
    | some false => some (.ok ep.1, { tp.2 with workflow := ep.2 })

/-- `find_edge` in petgraph iteration order (most recently added first). -/
def find_edge (g : WG) (src tgt : Nat) : Option Nat :=
  ((g.edges.filter (fun e => e.src = src ∧ e.tgt = tgt)).reverse.head?).map
    (fun e => e.eid)

/-- Model of `disconnect_agents` (lines 144-162). -/
def disconnect_agents (ar : AR) (src_name dst_name : String) : Except GWError AR :=
  match Swarms.alookup src_name ar.name_to_node with
  | none => .error (.agentNotFound ("Source agent '" ++ src_name ++ "' not found"))
  | some from_idx =>
    match Swarms.alookup dst_name ar.name_to_node with
    | none => .error (.agentNotFound ("Target agent '" ++ dst_name ++ "' not found"))
    | some to_idx =>
      match find_edge ar.workflow from_idx to_idx with
      | some e => .ok { ar with workflow := remove_edge ar.workflow e }
      | none => .error (.agentNotFound
          ("No connection from '" ++ src_name ++ "' to '" ++ dst_name ++ "'"))

/-- Model of `remove_agent` (lines 165-176). -/
def remove_agent (ar : AR) (name : String) : Except GWError AR :=
  match Swarms.alookup name ar.name_to_node with
  | some node_idx => .ok
      { agents := Swarms.aremove name ar.agents
        , workflow := remove_node ar.workflow node_idx
        , name_to_node := Swarms.aremove name ar.name_to_node }
  | none => .error (.agentNotFound ("Agent '" ++ name ++ "' not found"))

/-- The edge guard `flow.condition.as_ref().is_none_or(|cond| cond(output))`
(line 263). -/
def should_flow (f : Flow) (output : String) : Bool :=
  match f.condition with
  | none => true
  | some cond => cond output

/-- The edge rewrite
`flow.transform.as_ref().map_or_else(|| output.clone(), |t| t(output))`
(lines 267-270). -/
def next_input (f : Flow) (output : String) : String :=
  match f.transform with
  | none => output
  | some t => t output

/-- Model of `execute_agent` (lines 179-195): run the registered agent,
wrapping its error text in `AgentError`. -/
def execute_agent (ar : AR) (name : String) (input : String) : Except GWError String :=
  match Swarms.alookup name ar.agents with
  | some beh =>
    match beh input with
    | .ok out => .ok out
    | .error e => .error (.agentError e)
  | none => .error (.agentNotFound ("Agent '" ++ name ++ "' not found"))

mutual

/-- Model of `execute_node` (lines 226-279): run the node's agent, store
the result in the result map and in the node's `last_result`; on success
process the outgoing edges; on failure return the error (the caller's
`?` then propagates it).  Fuel only bounds the recursion depth. -/
def execute_node : Nat → AR → Nat → String →
    List (String × Except GWError String) →
    Except GWError String × List (String × Except GWError String) × AR
  | 0, ar, _, _, results => (.error .outOfFuel, results, ar)
  | fuel + 1, ar, node_idx, input, results =>
    match (ar.workflow.slots.get? node_idx).getD none with
    | none => (.error (.agentNotFound "Node not found in graph"), results, ar)
    | some node =>
      let result := execute_agent ar node.name input
      let results1 := Swarms.aset node.name result results
      let ar1 : AR := { ar with
        workflow := { ar.workflow with
          slots := ar.workflow.slots.set node_idx (some ⟨node.name, some result⟩) } }
      match result with
      | .error e => (.error e, results1, ar1)
      | .ok output =>
        match processEdges fuel ar1 (outEdges ar1.workflow node_idx) output results1 with
        | (.error e2, results2, ar2) => (.error e2, results2, ar2)
        | (.ok _, results2, ar2) => (.ok output, results2, ar2)
termination_by fuel ar n i res => (fuel, 0)

/-- The edge loop of `execute_node` (lines 261-275): for each outgoing
edge whose condition passes, transform the output and recursively execute
the target; `execute_node(...).await?` makes a failing subtree abort the
remaining edges. -/
def processEdges : Nat → AR → List EdgeRec → String →
    List (String × Except GWError String) →
    Except GWError Unit × List (String × Except GWError String) × AR
  | _, ar, [], _, results => (.ok (), results, ar)
  | fuel, ar, e :: rest, output, results =>
    if should_flow e.flow output then
      match execute_node fuel ar e.tgt (next_input e.flow output) results with
      | (.error er, results1, ar1) => (.error er, results1, ar1)
      | (.ok _, results1, ar1) => processEdges fuel ar1 rest output results1
    else processEdges fuel ar rest output results
termination_by fuel ar l o res => (fuel, l.length + 1)

end

/-- Model of `execute_workflow` (lines 198-224): reset all cached
results, then execute from the start node; a propagated node error makes
the whole call fail and the result map is dropped. -/
def execute_workflow (fuel : Nat) (ar : AR) (start_agent : String)
    (input : String) :
    Except GWError (List (String × Except GWError String)) × AR :=
  match Swarms.alookup start_agent ar.name_to_node with
  | none => (.error (.agentNotFound
      ("Start agent '" ++ start_agent ++ "' not found")), ar)
  | some start_idx =>
    let ar0 : AR := { ar with
      workflow := { ar.workflow with
        slots := ar.workflow.slots.map
          (fun s => s.map (fun nd => ⟨nd.name, none⟩)) } }
    match execute_node fuel ar0 start_idx input [] with
    | (.error e, _, ar1) => (.error e, ar1)
    | (.ok _, results, ar1) => (.ok results, ar1)

/-- A directed edge between two stable indices exists in the edge list. -/
def hasEdge (edges : List EdgeRec) (u v : Nat) : Prop :=
  ∃ e ∈ edges, e.src = u ∧ e.tgt = v

/-- A nonempty directed path along the edge list. -/
inductive EdgePath (edges : List EdgeRec) : Nat → Nat → Prop where
  | single {u v : Nat} : hasEdge edges u v → EdgePath edges u v
  | cons {u v w : Nat} : hasEdge edges u v → EdgePath edges v w → EdgePath edges u w

/-- The graph has a directed cycle: a nonempty path from some node to
itself. -/
def CyclicG (g : WG) : Prop := ∃ u, EdgePath g.edges u u

/-- An agent behavior used by the concrete scenarios. -/
def behEcho : String → Except String String := fun t => .ok t

/-- The orchestrator after registering agents A, B, C (stable indices
0, 1, 2). -/
def arABC : AR :=
  register_agent (register_agent (register_agent newAR "A" behEcho) "B" behEcho)
    "C" behEcho

/-- The state after `connect_agents(B, C)` on `arABC`. -/
def arBC : AR :=
  ⟨[("A", behEcho), ("B", behEcho), ("C", behEcho)],
    ⟨[some ⟨"A", none⟩, some ⟨"B", none⟩, some ⟨"C", none⟩], [],
      [⟨0, 1, 2, defaultFlow⟩], [], 1⟩,
    [("A", 0), ("B", 1), ("C", 2)]⟩

/-- The state after `remove_agent(A)` on `arBC`: slot 0 is vacant while
nodes 1 and 2 keep their stable indices, so `node_count` is 2 but a live
index 2 remains. -/
def arStale : AR :=
  ⟨[("B", behEcho), ("C", behEcho)],
    ⟨[none, some ⟨"B", none⟩, some ⟨"C", none⟩], [0],
      [⟨0, 1, 2, defaultFlow⟩], [], 1⟩,
    [("B", 1), ("C", 2)]⟩

/-- C10 (code bug): the claimed bound fails after `remove_agent`.  The
state `arStale` is reached by registering A, B, C, connecting B → C and
removing A; its graph keeps live stable index 2 while `node_count` is 2,
so `has_cycle`, whose `visited` / `rec_stack` vectors have length
`node_count`, indexes out of bounds and the next `connect_agents` panics
(modelled by `none`) instead of completing. -/
theorem c10_stale_index_out_of_bounds :
    connect_agents arABC "B" "C" defaultFlow = some (.ok 0, arBC) ∧
    remove_agent arBC "A" = .ok arStale ∧
    2 ∈ node_indices arStale.workflow ∧
    node_count arStale.workflow = 2 ∧
    connect_agents arStale "B" "C" defaultFlow = none := by
  refine ⟨?_, ?_, ?_, ?_, ?_⟩
  · simp [connect_agents, arABC, arBC, register_agent, newAR, emptyWG, add_node,
      add_edge, Swarms.alookup, Swarms.aset, has_cycle, hasCycleOuter, dfsVisit,
      dfsNeighbors, node_indices, node_count, outNeighbors, outEdges, behEcho,
      defaultFlow]
  · simp [remove_agent, arBC, arStale, Swarms.alookup, Swarms.aremove, remove_node,
      behEcho, defaultFlow]
  · simp [node_indices, arStale, Swarms.alookup]
  · rfl
  · simp [connect_agents, arStale, add_edge, Swarms.alookup, Swarms.aset,
      has_cycle, hasCycleOuter, dfsVisit, dfsNeighbors, node_indices, node_count,
      outNeighbors, outEdges, behEcho, defaultFlow]

/-- C2 counterexample: at the reachable state `arStale`, tentatively
inserting the edge C → B creates a directed cycle 1 → 2 → 1, yet the call
does not return `CycleDetected` with the graph restored — it panics inside
`has_cycle` (modelled by `none`). -/
theorem c2_cycle_rollback_counterexample :
    CyclicG (add_edge arStale.workflow 2 1 defaultFlow).2 ∧
    connect_agents arStale "C" "B" defaultFlow = none := by
  constructor
  · have hedges : (add_edge arStale.workflow 2 1 defaultFlow).2.edges =
        [⟨0, 1, 2, defaultFlow⟩, ⟨1, 2, 1, defaultFlow⟩] := rfl
    refine ⟨1, .cons ⟨⟨0, 1, 2, defaultFlow⟩, ?_, rfl, rfl⟩
      (.single ⟨⟨1, 2, 1, defaultFlow⟩, ?_, rfl, rfl⟩)⟩
    · rw [hedges]
      exact List.mem_cons_self _ _
    · rw [hedges]
      exact List.mem_cons_of_mem _ (List.mem_cons_self _ _)
  · simp [connect_agents, arStale, add_edge, Swarms.alookup, Swarms.aset,
      has_cycle, hasCycleOuter, dfsVisit, dfsNeighbors, node_indices, node_count,
      outNeighbors, outEdges, behEcho, defaultFlow]

/-- The three-node workflow for the execution claims: parent `P` (index 0)
with edges to `A` (index 1, added first) and `B` (index 2, added second);
petgraph iterates `B`'s edge first. -/
def arC8 (fP fA fB : String → Except String String) (flowA flowB : Flow) : AR :=
  ⟨[("P", fP), ("A", fA), ("B", fB)],
    ⟨[some ⟨"P", none⟩, some ⟨"A", none⟩, some ⟨"B", none⟩], [],
      [⟨0, 0, 1, flowA⟩, ⟨1, 0, 2, flowB⟩], [], 2⟩,
    [("P", 0), ("A", 1), ("B", 2)]⟩

/-- One `execute_node` call on the three-node workflow, from the parent. -/
def execC8 (fP fA fB : String → Except String String) (flowA flowB : Flow)
    (input : String) :
    Except GWError String × List (String × Except GWError String) × AR :=
  execute_node 2 (arC8 fP fA fB flowA flowB) 0 input []

/-- The three-node workflow where the parent succeeds, the first-iterated
child `B` fails, and the other child `A` would succeed. -/
def arC8bad : AR :=
  arC8 (fun _ => .ok "out") (fun _ => .ok "fine") (fun _ => .error "boom")
    defaultFlow defaultFlow

/-- C8 counterexample: with parent `P` succeeding and children `A`
(would succeed) and `B` (fails), both edges unconditional, the failure of
`B` — iterated first — cancels the sibling `A` (never executed, absent
from the result map) and propagates: `execute_node` on `P` and the whole
`execute_workflow` return the error, against the claim that sibling
branches are not cancelled and failures are only recorded per node. -/
theorem c8_sibling_cancellation_counterexample :
    (execute_node 2 arC8bad 0 "in" []).1 = .error (.agentError "boom") ∧
    Swarms.alookup "P" (execute_node 2 arC8bad 0 "in" []).2.1 = some (.ok "out") ∧
    Swarms.alookup "B" (execute_node 2 arC8bad 0 "in" []).2.1 =
      some (.error (.agentError "boom")) ∧
    Swarms.alookup "A" (execute_node 2 arC8bad 0 "in" []).2.1 = none ∧
    (execute_workflow 3 arC8bad "P" "in").1 = .error (.agentError "boom") := by
  refine ⟨?_, ?_, ?_, ?_, ?_⟩ <;>
    simp [execute_node, processEdges, execute_agent, execute_workflow, arC8bad,
      arC8, outEdges, should_flow, next_input, Swarms.alookup, Swarms.aset,
      defaultFlow]

/-- C8 amended: after a node completes, each outgoing edge's target runs
iff the node succeeded, the edge's condition is absent or true on the
output, and every earlier-iterated sibling subtree succeeded (edges
iterate most-recently-added first); a fired target receives the edge's
transform of the output (the output itself without a transform); a node's
failure is recorded in the result map and then propagates to the caller,
cancelling the remaining sibling edges. -/
theorem c8_edge_propagation_amended (fP fA fB : String → Except String String)
    (trA trB : Option (String → String)) (cA cB : Option (String → Bool))
    (input : String) :
    (∀ e, fP input = .error e →
      (execC8 fP fA fB ⟨trA, cA⟩ ⟨trB, cB⟩ input).1 = .error (.agentError e) ∧
      (execC8 fP fA fB ⟨trA, cA⟩ ⟨trB, cB⟩ input).2.1 =
        [("P", .error (.agentError e))]) ∧
    (∀ out, fP input = .ok out →
      Swarms.alookup "P" (execC8 fP fA fB ⟨trA, cA⟩ ⟨trB, cB⟩ input).2.1 =
        some (.ok out) ∧
      ((Swarms.alookup "B" (execC8 fP fA fB ⟨trA, cA⟩ ⟨trB, cB⟩ input).2.1).isSome
          = true ↔ should_flow ⟨trB, cB⟩ out = true) ∧
      (should_flow ⟨trB, cB⟩ out = true →
        Swarms.alookup "B" (execC8 fP fA fB ⟨trA, cA⟩ ⟨trB, cB⟩ input).2.1 =
          some ((fB (next_input ⟨trB, cB⟩ out)).mapError .agentError)) ∧
      ((Swarms.alookup "A" (execC8 fP fA fB ⟨trA, cA⟩ ⟨trB, cB⟩ input).2.1).isSome
          = true ↔
        (should_flow ⟨trA, cA⟩ out = true ∧
          (should_flow ⟨trB, cB⟩ out = true →
            ∃ outB, fB (next_input ⟨trB, cB⟩ out) = .ok outB))) ∧
      (should_flow ⟨trA, cA⟩ out = true →
        (should_flow ⟨trB, cB⟩ out = true →
          ∃ outB, fB (next_input ⟨trB, cB⟩ out) = .ok outB) →
        Swarms.alookup "A" (execC8 fP fA fB ⟨trA, cA⟩ ⟨trB, cB⟩ input).2.1 =
          some ((fA (next_input ⟨trA, cA⟩ out)).mapError .agentError))) := by
  constructor
  · intro e he
    constructor <;>
      simp [execC8, execute_node, execute_agent, arC8, Swarms.alookup,
        Swarms.aset, he]
  · intro out hout
    by_cases hsB : should_flow ⟨trB, cB⟩ out = true
    · cases hB : fB (next_input ⟨trB, cB⟩ out) with
      | error b =>
        refine ⟨?_, ?_, ?_, ?_, ?_⟩ <;>
          simp [execC8, execute_node, processEdges, execute_agent, arC8,
            outEdges, Swarms.alookup, Swarms.aset, hout, hsB, hB,
            Except.mapError]
      | ok b =>
        by_cases hsA : should_flow ⟨trA, cA⟩ out = true
        · cases hA : fA (next_input ⟨trA, cA⟩ out) with
          | error a =>
            refine ⟨?_, ?_, ?_, ?_, ?_⟩ <;>
              simp [execC8, execute_node, processEdges, execute_agent, arC8,
                outEdges, Swarms.alookup, Swarms.aset, hout, hsB, hB, hsA, hA,
                Except.mapError]
          | ok a =>
            refine ⟨?_, ?_, ?_, ?_, ?_⟩ <;>
              simp [execC8, execute_node, processEdges, execute_agent, arC8,
                outEdges, Swarms.alookup, Swarms.aset, hout, hsB, hB, hsA, hA,
                Except.mapError]
        · refine ⟨?_, ?_, ?_, ?_, ?_⟩ <;>
            simp [execC8, execute_node, processEdges, execute_agent, arC8,
              outEdges, Swarms.alookup, Swarms.aset, hout, hsB, hB, hsA,
              Except.mapError]
    · by_cases hsA : should_flow ⟨trA, cA⟩ out = true
      · cases hA : fA (next_input ⟨trA, cA⟩ out) with
        | error a =>
          refine ⟨?_, ?_, ?_, ?_, ?_⟩ <;>
            simp [execC8, execute_node, processEdges, execute_agent, arC8,
              outEdges, Swarms.alookup, Swarms.aset, hout, hsB, hsA, hA,
              Except.mapError]
        | ok a =>
          refine ⟨?_, ?_, ?_, ?_, ?_⟩ <;>
            simp [execC8, execute_node, processEdges, execute_agent, arC8,
              outEdges, Swarms.alookup, Swarms.aset, hout, hsB, hsA, hA,
              Except.mapError]
      · refine ⟨?_, ?_, ?_, ?_, ?_⟩ <;>
          simp [execC8, execute_node, processEdges, execute_agent, arC8,
            outEdges, Swarms.alookup, Swarms.aset, hout, hsB, hsA,
            Except.mapError]

/-- Witness for the amended C8: a conditioned, transformed edge to `B`
and an unconditional edge to `A`, all agents succeeding. -/
theorem c8_edge_propagation_amended_witness :
    Swarms.alookup "B" (execC8 (fun _ => .ok "out") (fun s => .ok s)
        (fun s => .ok s) ⟨none, none⟩
        ⟨some (fun s => "prefix: " ++ s), some (fun s => s == "out")⟩
        "in").2.1 = some (.ok "prefix: out") ∧
    Swarms.alookup "A" (execC8 (fun _ => .ok "out") (fun s => .ok s)
        (fun s => .ok s) ⟨none, none⟩
        ⟨some (fun s => "prefix: " ++ s), some (fun s => s == "out")⟩
        "in").2.1 = some (.ok "out") := by
  obtain ⟨-, h2⟩ := c8_edge_propagation_amended (fun _ => .ok "out")
    (fun s => .ok s) (fun s => .ok s) none (some (fun s => "prefix: " ++ s))
    none (some (fun s => s == "out")) "in"
  obtain ⟨-, -, hB, -, hA⟩ := h2 "out" rfl
  exact ⟨hB rfl, hA rfl (fun _ => ⟨"prefix: out", rfl⟩)⟩

/-! ### Correctness of the cycle check on compact graphs

A graph is compact when no slot is vacant and all edge endpoints are in
bounds — exactly the states reachable without `remove_agent`, where
stable indices coincide with positions below `node_count`. -/

/-- No vacant slot, and every edge endpoint in bounds. -/
def CompactG (g : WG) : Prop :=
  (∀ s ∈ g.slots, s.isSome = true) ∧
  (∀ e ∈ g.edges, e.src < g.slots.length ∧ e.tgt < g.slots.length)

/-- Live edge ids are below `next_edge` and never on the free list. -/
def EdgeIdsOK (g : WG) : Prop :=
  ∀ e ∈ g.edges, e.eid < g.next_edge ∧ e.eid ∉ g.edge_free

/-- Well-formedness of an orchestrator state as maintained by
`register_agent`, `connect_agents` and `disconnect_agents`. -/
def WellFormedAR (ar : AR) : Prop :=
  CompactG ar.workflow ∧ EdgeIdsOK ar.workflow ∧
  ∀ p ∈ ar.name_to_node, p.2 < ar.workflow.slots.length

theorem compact_node_count (g : WG) (h : ∀ s ∈ g.slots, s.isSome = true) :
    node_count g = g.slots.length := by
  unfold node_count
  rw [List.filter_eq_self.mpr h]

theorem compact_node_indices (g : WG) (h : ∀ s ∈ g.slots, s.isSome = true) :
    node_indices g = List.range g.slots.length := by
  unfold node_indices
  apply List.filter_eq_self.mpr
  intro i hi
  rw [List.mem_range] at hi
  rw [List.get?_eq_get hi]
  simpa using h _ (List.get_mem _ _ _)

theorem mem_outNeighbors_iff (g : WG) (u v : Nat) :
    v ∈ outNeighbors g u ↔ hasEdge g.edges u v := by
  unfold outNeighbors outEdges hasEdge
  constructor
  · intro hv
    obtain ⟨e, he, rfl⟩ := List.mem_map.mp hv
    rw [List.mem_reverse, List.mem_filter] at he
    exact ⟨e, he.1, by simpa using he.2, rfl⟩
  · rintro ⟨e, he, hsrc, rfl⟩
    refine List.mem_map.mpr ⟨e, ?_, rfl⟩
    rw [List.mem_reverse, List.mem_filter]
    refine ⟨he, ?_⟩
    simp [hsrc]

/-- Number of unvisited entries: the DFS depth measure. -/
def countFalse (v : List Bool) : Nat := (v.filter (fun b => b = false)).length

theorem countFalse_le_length (v : List Bool) : countFalse v ≤ v.length :=
  List.length_filter_le _ _

theorem countFalse_set_true (v : List Bool) :
    ∀ i, v.get? i = some false → countFalse (v.set i true) < countFalse v := by
  induction v with
  | nil => intro i h; simp at h
  | cons b rest ih =>
    intro i h
    cases i with
    | zero =>
      simp only [List.get?] at h
      cases h
      simp [countFalse, List.filter_cons]
    | succ j =>
      simp only [List.get?] at h
      have := ih j h
      simp only [List.set, countFalse, List.filter_cons] at *
      cases hb : b <;> simp [hb] at * <;> omega

theorem set_get_self (v : List Bool) :
    ∀ i a, v.get? i = some a → v.set i a = v := by
  induction v with
  | nil => intro i a h; simp at h
  | cons b rest ih =>
    intro i a h
    cases i with
    | zero =>
      simp only [List.get?] at h
      cases h
      rfl
    | succ j =>
      simp only [List.get?] at h
      simp [List.set, ih j a h]

mutual

/-- Ghost-instrumented `dfsVisit`: identical control flow, additionally
recording the order in which nodes finish (their `rec_stack` bit is
cleared). -/
def dfsVisitG (g : WG) : Nat → Nat → List Bool → List Bool → List Nat →
    Option (Bool × List Bool × List Bool × List Nat)
  | 0, _, _, _, _ => none
  | fuel + 1, node, visited, rst, fin =>
    if node < visited.length ∧ node < rst.length then
      match dfsNeighborsG g fuel (outNeighbors g node)
          (visited.set node true) (rst.set node true) fin with
      | none => none
      | some (true, v2, r2, f2) => some (true, v2, r2, f2)
      | some (false, v2, r2, f2) => some (false, v2, r2.set node false, f2 ++ [node])
    else none
termination_by fuel node v r f => (fuel, 0)

/-- Ghost-instrumented `dfsNeighbors`. -/
def dfsNeighborsG (g : WG) : Nat → List Nat → List Bool → List Bool → List Nat →
    Option (Bool × List Bool × List Bool × List Nat)
  | _, [], visited, rst, fin => some (false, visited, rst, fin)
  | fuel, n :: rest, visited, rst, fin =>
    match visited.get? n with
    | none => none
    | some true =>
      match rst.get? n with
      | none => none
      | some true => some (true, visited, rst, fin)
      | some false => dfsNeighborsG g fuel rest visited rst fin
    | some false =>
      match dfsVisitG g fuel n visited rst fin with
      | none => none
      | some (true, v2, r2, f2) => some (true, v2, r2, f2)
      | some (false, v2, r2, f2) => dfsNeighborsG g fuel rest v2 r2 f2
termination_by fuel l v r f => (fuel, l.length + 1)

end

/-- Forgetting the ghost finish list. -/
def dfsProj (x : Bool × List Bool × List Bool × List Nat) :
    Bool × List Bool × List Bool := (x.1, x.2.1, x.2.2.1)

theorem dfs_proj_eq (g : WG) : ∀ fuel,
    (∀ node v r fin, dfsVisit g fuel node v r =
      Option.map dfsProj (dfsVisitG g fuel node v r fin)) ∧
    (∀ l v r fin, dfsNeighbors g fuel l v r =
      Option.map dfsProj (dfsNeighborsG g fuel l v r fin)) := by
  intro fuel
  induction fuel with
  | zero =>
    have hV : ∀ node v r (fin : List Nat), dfsVisit g 0 node v r =
        Option.map dfsProj (dfsVisitG g 0 node v r fin) := by
      intro node v r fin
      simp [dfsVisit, dfsVisitG]
    refine ⟨hV, ?_⟩
    intro l
    induction l with
    | nil =>
      intro v r fin
      simp [dfsNeighbors, dfsNeighborsG, dfsProj]
    | cons n rest ihl =>
      intro v r fin
      simp only [dfsNeighbors, dfsNeighborsG]
      cases hv : v.get? n with
      | none => simp [hv]
      | some b =>
        cases b
        · simp only [hv, dfsVisit, dfsVisitG]
          simp
        · cases hr : r.get? n with
          | none => simp [hv, hr]
          | some c =>
            cases c
            · simpa only [hv, hr] using ihl v r fin
            · simp [hv, hr, dfsProj]
  | succ fuel ih =>
    obtain ⟨ihV, ihN⟩ := ih
    have hV : ∀ node v r (fin : List Nat), dfsVisit g (fuel + 1) node v r =
        Option.map dfsProj (dfsVisitG g (fuel + 1) node v r fin) := by
      intro node v r fin
      simp only [dfsVisit, dfsVisitG]
      by_cases h : node < v.length ∧ node < r.length
      · rw [if_pos h, if_pos h]
        rw [ihN (outNeighbors g node) (v.set node true) (r.set node true) fin]
        cases hng : dfsNeighborsG g fuel (outNeighbors g node)
            (v.set node true) (r.set node true) fin with
        | none => rfl
        | some x =>
          obtain ⟨b, v2, r2, f2⟩ := x
          cases b <;> rfl
      · rw [if_neg h, if_neg h]
        rfl
    refine ⟨hV, ?_⟩
    intro l
    induction l with
    | nil =>
      intro v r fin
      simp [dfsNeighbors, dfsNeighborsG, dfsProj]
    | cons n rest ihl =>
      intro v r fin
      simp only [dfsNeighbors, dfsNeighborsG]
      cases hv : v.get? n with
      | none => simp [hv]
      | some b =>
        cases b
        · rw [hV n v r fin]
          cases hvg : dfsVisitG g (fuel + 1) n v r fin with
          | none => simp [hv, hvg]
          | some x =>
            obtain ⟨b2, v2, r2, f2⟩ := x
            cases b2
            · simpa only [hv, hvg, Option.map_some', dfsProj] using ihl v2 r2 f2
            · simp [hv, hvg, dfsProj]
        · cases hr : r.get? n with
          | none => simp [hv, hr]
          | some c =>
            cases c
            · simpa only [hv, hr] using ihl v r fin
            · simp [hv, hr, dfsProj]

theorem get_is_some {α : Type} (l : List α) (i : Nat) (h : i < l.length) :
    ∃ a, l.get? i = some a := ⟨l.get ⟨i, h⟩, List.get?_eq_get h⟩

theorem get_set_self_of_lt {α : Type} (l : List α) (i : Nat) (a : α)
    (h : i < l.length) : (l.set i a).get? i = some a := by
  rw [List.get?_set_eq, List.get?_eq_get h]
  rfl

theorem get_true_set_true (v : List Bool) (node i : Nat)
    (h : v.get? i = some true) : (v.set node true).get? i = some true := by
  by_cases hni : node = i
  · subst hni
    rw [List.get?_set_eq, h]
    rfl
  · rw [List.get?_set_ne _ _ hni]
    exact h

theorem take_append_left {α : Type} (l l' : List α) (k : Nat) (h : k ≤ l.length) :
    (l ++ l').take k = l.take k := by
  simp [List.take_append_eq_append_take, Nat.sub_eq_zero_of_le h]

theorem countFalse_pos (v : List Bool) :
    ∀ i, v.get? i = some false → 0 < countFalse v := by
  induction v with
  | nil => intro i h; simp at h
  | cons b rest ih =>
    intro i h
    cases i with
    | zero =>
      simp only [List.get?] at h
      cases h
      simp [countFalse, List.filter_cons]
    | succ j =>
      simp only [List.get?] at h
      have hrest := ih j h
      simp only [countFalse, List.filter_cons] at hrest ⊢
      cases b
      · simp
      · simpa using hrest

theorem mem_take_indexOf (j : Nat) :
    ∀ (l : List Nat) (k : Nat), j ∈ l.take k → l.indexOf j < k := by
  intro l
  induction l with
  | nil => intro k h; simp at h
  | cons a l2 ih =>
    intro k h
    cases k with
    | zero => simp at h
    | succ k2 =>
      rw [List.take_succ_cons] at h
      by_cases hja : a = j
      · subst hja
        rw [List.indexOf_cons_self]
        exact Nat.succ_pos _
      · rw [List.indexOf_cons_ne _ hja]
        have hj : j ∈ l2.take k2 := by
          rcases List.mem_cons.mp h with h1 | h2
          · exact absurd h1.symm hja
          · exact h2
        exact Nat.succ_lt_succ (ih k2 hj)

theorem get_replicate {α : Type} (a : α) :
    ∀ (n i : Nat), i < n → (List.replicate n a).get? i = some a := by
  intro n
  induction n with
  | zero => intro i h; omega
  | succ n ih =>
    intro i h
    cases i with
    | zero => rfl
    | succ j => exact ih j (by omega)

/-- The invariant of the `is_cyclic_util` DFS on a compact graph:
`visited` and `rec_stack` have full length, the recursion stack is
visited, the ghost finish list holds exactly the visited off-stack nodes
without repetition, and every finished node's successors finish strictly
earlier. -/
structure DfsInv (g : WG) (v r : List Bool) (fin : List Nat) : Prop where
  vlen : v.length = g.slots.length
  rlen : r.length = g.slots.length
  sub : ∀ i, r.get? i = some true → v.get? i = some true
  done : ∀ i, i ∈ fin ↔ (v.get? i = some true ∧ r.get? i = some false)
  nodup : fin.Nodup
  topo : ∀ k i, fin.get? k = some i → ∀ j, hasEdge g.edges i j → j ∈ fin.take k

/-- What a cycle-free DFS call guarantees: the invariant again, the
recursion stack restored, visited monotone, the unvisited count not
increased, and the finish list extended. -/
structure DfsPost (g : WG) (v r : List Bool) (fin : List Nat)
    (v2 r2 : List Bool) (f2 : List Nat) : Prop where
  inv : DfsInv g v2 r2 f2
  rEq : r2 = r
  vMono : ∀ i, v.get? i = some true → v2.get? i = some true
  cfLe : countFalse v2 ≤ countFalse v
  finExt : ∃ t, f2 = fin ++ t

theorem DfsPost.refl (g : WG) (v r : List Bool) (fin : List Nat)
    (h : DfsInv g v r fin) : DfsPost g v r fin v r fin :=
  ⟨h, rfl, fun _ h2 => h2, le_refl _, ⟨[], by simp⟩⟩

theorem DfsPost.trans (g : WG) (v r : List Bool) (fin : List Nat)
    (v2 r2 : List Bool) (f2 : List Nat) (v3 r3 : List Bool) (f3 : List Nat)
    (p : DfsPost g v r fin v2 r2 f2) (q : DfsPost g v2 r2 f2 v3 r3 f3) :
    DfsPost g v r fin v3 r3 f3 := by
  refine ⟨q.inv, by rw [q.rEq, p.rEq], fun i h => q.vMono i (p.vMono i h),
    le_trans q.cfLe p.cfLe, ?_⟩
  obtain ⟨t1, h1⟩ := p.finExt
  obtain ⟨t2, h2⟩ := q.finExt
  exact ⟨t1 ++ t2, by rw [h2, h1, List.append_assoc]⟩

/-- Entering a node: marking it visited and on the stack preserves the
invariant. -/
theorem DfsInv.push (g : WG) (v r : List Bool) (fin : List Nat) (node : Nat)
    (hInv : DfsInv g v r fin) (hnode : node < g.slots.length)
    (hv : v.get? node = some false) :
    DfsInv g (v.set node true) (r.set node true) fin := by
  have hvl : node < v.length := by rw [hInv.vlen]; exact hnode
  have hrl : node < r.length := by rw [hInv.rlen]; exact hnode
  refine ⟨?_, ?_, ?_, ?_, hInv.nodup, hInv.topo⟩
  · rw [List.length_set, hInv.vlen]
  · rw [List.length_set, hInv.rlen]
  · intro i hi
    by_cases hni : node = i
    · subst hni
      exact get_set_self_of_lt v node true hvl
    · rw [List.get?_set_ne _ _ hni] at hi
      exact get_true_set_true v node i (hInv.sub i hi)
  · intro i
    by_cases hni : node = i
    · subst hni
      constructor
      · intro hmem
        have hd := (hInv.done node).mp hmem
        rw [hv] at hd
        exact absurd hd.1 (by simp)
      · intro hpair
        rw [get_set_self_of_lt r node true hrl] at hpair
        exact absurd hpair.2 (by simp)
    · rw [List.get?_set_ne _ _ hni, List.get?_set_ne _ _ hni]
      exact hInv.done i

/-- Leaving a node after a cycle-free scan of its neighborhood: clearing
its stack bit and appending it to the finish list restores the recursion
stack and preserves the invariant, with the node now finished. -/
theorem DfsInv.pop (g : WG) (v r : List Bool) (fin : List Nat) (node : Nat)
    (v2 r2 : List Bool) (f2 : List Nat)
    (hInv : DfsInv g v r fin) (hnode : node < g.slots.length)
    (hv : v.get? node = some false)
    (hpost : DfsPost g (v.set node true) (r.set node true) fin v2 r2 f2)
    (hall : ∀ j, hasEdge g.edges node j → j ∈ f2) :
    DfsPost g v r fin v2 (r2.set node false) (f2 ++ [node]) ∧
      node ∈ f2 ++ [node] := by
  have hvl : node < v.length := by rw [hInv.vlen]; exact hnode
  have hrl : node < r.length := by rw [hInv.rlen]; exact hnode
  obtain ⟨c, hc⟩ := get_is_some r node hrl
  have hrnode : r.get? node = some false := by
    cases c
    · exact hc
    · exact absurd (hInv.sub node hc) (by rw [hv]; simp)
  have hkey : r2.set node false = r := by
    rw [hpost.rEq, List.set_set]
    exact set_get_self r node false hrnode
  have hv2node : v2.get? node = some true :=
    hpost.vMono node (get_set_self_of_lt v node true hvl)
  have hr2node : r2.get? node = some true := by
    rw [hpost.rEq]
    exact get_set_self_of_lt r node true hrl
  have hnotin : node ∉ f2 := by
    intro hmem
    have hd := (hpost.inv.done node).mp hmem
    rw [hr2node] at hd
    exact absurd hd.2 (by simp)
  rw [hkey]
  refine ⟨⟨⟨?_, ?_, ?_, ?_, ?_, ?_⟩, rfl, ?_, ?_, ?_⟩,
    List.mem_append_right _ (List.mem_singleton_self _)⟩
  · exact hpost.inv.vlen
  · exact hInv.rlen
  · intro i hi
    exact hpost.vMono i (get_true_set_true v node i (hInv.sub i hi))
  · intro i
    by_cases hni : i = node
    · subst hni
      exact iff_of_true (List.mem_append_right _ (List.mem_singleton_self _))
        ⟨hv2node, hrnode⟩
    · rw [List.mem_append]
      have h2 := hpost.inv.done i
      rw [hpost.rEq, List.get?_set_ne _ _ (fun h => hni h.symm)] at h2
      simp only [List.mem_singleton, hni, or_false]
      exact h2
  · simp [List.nodup_append, hpost.inv.nodup, hnotin]
  · intro k i hk j hij
    rcases Nat.lt_trichotomy k f2.length with hlt | heq | hgt
    · rw [List.get?_append hlt] at hk
      have hthis := hpost.inv.topo k i hk j hij
      rw [take_append_left _ _ _ (le_of_lt hlt)]
      exact hthis
    · rw [List.get?_append_right (le_of_eq heq.symm)] at hk
      rw [heq, Nat.sub_self] at hk
      simp only [List.get?] at hk
      have hi : i = node := (Option.some.inj hk).symm
      subst hi
      rw [heq, take_append_left _ _ _ (le_refl _), List.take_length]
      exact hall j hij
    · have hlen : (f2 ++ [node]).length ≤ k := by
        simp only [List.length_append, List.length_singleton]
        omega
      rw [List.get?_eq_none.mpr hlen] at hk
      exact absurd hk (by simp)
  · intro i hi
    exact hpost.vMono i (get_true_set_true v node i hi)
  · exact le_of_lt (lt_of_le_of_lt hpost.cfLe (countFalse_set_true v node hv))
  · obtain ⟨t, ht⟩ := hpost.finExt
    exact ⟨t ++ [node], by rw [ht, List.append_assoc]⟩

/-- The ghost DFS on a graph with in-bounds edges never goes out of
bounds, and every cycle-free return satisfies `DfsPost` with the visited
node (resp. all scanned neighbors) finished. -/
theorem dfsG_spec (g : WG)
    (hE : ∀ e ∈ g.edges, e.src < g.slots.length ∧ e.tgt < g.slots.length) :
    ∀ fuel,
    (∀ node v r fin, DfsInv g v r fin → node < g.slots.length →
      v.get? node = some false → countFalse v ≤ fuel →
      ∃ b v2 r2 f2, dfsVisitG g fuel node v r fin = some (b, v2, r2, f2) ∧
        (b = true ∨ (DfsPost g v r fin v2 r2 f2 ∧ node ∈ f2))) ∧
    (∀ l v r fin, DfsInv g v r fin → (∀ n ∈ l, n < g.slots.length) →
      countFalse v ≤ fuel →
      ∃ b v2 r2 f2, dfsNeighborsG g fuel l v r fin = some (b, v2, r2, f2) ∧
        (b = true ∨ (DfsPost g v r fin v2 r2 f2 ∧ ∀ n ∈ l, n ∈ f2))) := by
  intro fuel
  induction fuel with
  | zero =>
    constructor
    · intro node v r fin hInv hnode hv hcf
      have hpos := countFalse_pos v node hv
      omega
    · intro l
      induction l with
      | nil =>
        intro v r fin hInv hb hcf
        refine ⟨false, v, r, fin, ?_, Or.inr ⟨DfsPost.refl g v r fin hInv, ?_⟩⟩
        · simp [dfsNeighborsG]
        · intro n hn
          simp at hn
      | cons n rest ihl =>
        intro v r fin hInv hb hcf
        have hn : n < g.slots.length := hb n (List.mem_cons_self n rest)
        have hnv : n < v.length := by rw [hInv.vlen]; exact hn
        obtain ⟨bn, hbn⟩ := get_is_some v n hnv
        cases bn with
        | false =>
          have hpos := countFalse_pos v n hbn
          omega
        | true =>
          have hnr : n < r.length := by rw [hInv.rlen]; exact hn
          obtain ⟨cn, hcn⟩ := get_is_some r n hnr
          cases cn with
          | true =>
            refine ⟨true, v, r, fin, ?_, Or.inl rfl⟩
            simp only [dfsNeighborsG, hbn, hcn]
          | false =>
            obtain ⟨b2, v2, r2, f2, heq, hd⟩ :=
              ihl v r fin hInv (fun m hm => hb m (List.mem_cons_of_mem _ hm)) hcf
            refine ⟨b2, v2, r2, f2, ?_, ?_⟩
            · simp only [dfsNeighborsG, hbn, hcn]
              exact heq
            · rcases hd with h | ⟨hpost, hrest⟩
              · exact Or.inl h
              · refine Or.inr ⟨hpost, ?_⟩
                intro m hm
                rcases List.mem_cons.mp hm with h1 | h2
                · subst h1
                  have hmemfin : m ∈ fin := (hInv.done m).mpr ⟨hbn, hcn⟩
                  obtain ⟨t, ht⟩ := hpost.finExt
                  rw [ht]
                  exact List.mem_append_left _ hmemfin
                · exact hrest m h2
  | succ fuel ih =>
    obtain ⟨ihV, ihN⟩ := ih
    have hV : ∀ node v r fin, DfsInv g v r fin → node < g.slots.length →
        v.get? node = some false → countFalse v ≤ fuel + 1 →
        ∃ b v2 r2 f2,
          dfsVisitG g (fuel + 1) node v r fin = some (b, v2, r2, f2) ∧
          (b = true ∨ (DfsPost g v r fin v2 r2 f2 ∧ node ∈ f2)) := by
      intro node v r fin hInv hnode hv hcf
      have hvl : node < v.length := by rw [hInv.vlen]; exact hnode
      have hrl : node < r.length := by rw [hInv.rlen]; exact hnode
      have hInv1 := DfsInv.push g v r fin node hInv hnode hv
      have hbound : ∀ n ∈ outNeighbors g node, n < g.slots.length := by
        intro n hmem
        obtain ⟨e, he, hs, ht⟩ := (mem_outNeighbors_iff g node n).mp hmem
        rw [← ht]
        exact (hE e he).2
      have hcf1 : countFalse (v.set node true) ≤ fuel := by
        have hlt := countFalse_set_true v node hv
        omega
      obtain ⟨b2, v2, r2, f2, heqN, hd⟩ := ihN (outNeighbors g node)
        (v.set node true) (r.set node true) fin hInv1 hbound hcf1
      cases b2 with
      | true =>
        refine ⟨true, v2, r2, f2, ?_, Or.inl rfl⟩
        simp only [dfsVisitG]
        rw [if_pos ⟨hvl, hrl⟩, heqN]
      | false =>
        obtain ⟨hpost, hall⟩ := hd.resolve_left (by simp)
        have hallE : ∀ j, hasEdge g.edges node j → j ∈ f2 := fun j hj =>
          hall j ((mem_outNeighbors_iff g node j).mpr hj)
        obtain ⟨hpost2, hmem⟩ :=
          DfsInv.pop g v r fin node v2 r2 f2 hInv hnode hv hpost hallE
        refine ⟨false, v2, r2.set node false, f2 ++ [node], ?_,
          Or.inr ⟨hpost2, hmem⟩⟩
        simp only [dfsVisitG]
        rw [if_pos ⟨hvl, hrl⟩, heqN]
    refine ⟨hV, ?_⟩
    intro l
    induction l with
    | nil =>
      intro v r fin hInv hb hcf
      refine ⟨false, v, r, fin, ?_, Or.inr ⟨DfsPost.refl g v r fin hInv, ?_⟩⟩
      · simp [dfsNeighborsG]
      · intro n hn
        simp at hn
    | cons n rest ihl =>
      intro v r fin hInv hb hcf
      have hn : n < g.slots.length := hb n (List.mem_cons_self n rest)
      have hnv : n < v.length := by rw [hInv.vlen]; exact hn
      obtain ⟨bn, hbn⟩ := get_is_some v n hnv
      cases bn with
      | true =>
        have hnr : n < r.length := by rw [hInv.rlen]; exact hn
        obtain ⟨cn, hcn⟩ := get_is_some r n hnr
        cases cn with
        | true =>
          refine ⟨true, v, r, fin, ?_, Or.inl rfl⟩
          simp only [dfsNeighborsG, hbn, hcn]
        | false =>
          obtain ⟨b2, v2, r2, f2, heq, hd⟩ :=
            ihl v r fin hInv (fun m hm => hb m (List.mem_cons_of_mem _ hm)) hcf
          refine ⟨b2, v2, r2, f2, ?_, ?_⟩
          · simp only [dfsNeighborsG, hbn, hcn]
            exact heq
          · rcases hd with h | ⟨hpost, hrest⟩
            · exact Or.inl h
            · refine Or.inr ⟨hpost, ?_⟩
              intro m hm
              rcases List.mem_cons.mp hm with h1 | h2
              · subst h1
                have hmemfin : m ∈ fin := (hInv.done m).mpr ⟨hbn, hcn⟩
                obtain ⟨t, ht⟩ := hpost.finExt
                rw [ht]
                exact List.mem_append_left _ hmemfin
              · exact hrest m h2
      | false =>
        obtain ⟨b2, v2, r2, f2, heqV, hdV⟩ := hV n v r fin hInv hn hbn hcf
        cases b2 with
        | true =>
          refine ⟨true, v2, r2, f2, ?_, Or.inl rfl⟩
          simp only [dfsNeighborsG, hbn]
          rw [heqV]
        | false =>
          obtain ⟨hpostV, hmemV⟩ := hdV.resolve_left (by simp)
          have hcf2 : countFalse v2 ≤ fuel + 1 := le_trans hpostV.cfLe hcf
          obtain ⟨b3, v3, r3, f3, heq3, hd3⟩ := ihl v2 r2 f2 hpostV.inv
            (fun m hm => hb m (List.mem_cons_of_mem _ hm)) hcf2
          refine ⟨b3, v3, r3, f3, ?_, ?_⟩
          · simp only [dfsNeighborsG, hbn]
            rw [heqV]
            exact heq3
          · rcases hd3 with h | ⟨hpost3, hrest3⟩
            · exact Or.inl h
            · refine Or.inr
                ⟨DfsPost.trans g v r fin v2 r2 f2 v3 r3 f3 hpostV hpost3, ?_⟩
              intro m hm
              rcases List.mem_cons.mp hm with h1 | h2
              · subst h1
                obtain ⟨t, ht⟩ := hpost3.finExt
                rw [ht]
                exact List.mem_append_left _ hmemV
              · exact hrest3 m h2

/-- The outer loop of `has_cycle` on a graph with in-bounds edges: with an
all-false recursion stack it returns `some`, and a `false` answer comes
with a finish list containing every processed start node. -/
theorem hasCycleOuter_spec (g : WG)
    (hE : ∀ e ∈ g.edges, e.src < g.slots.length ∧ e.tgt < g.slots.length) :
    ∀ (nodes : List Nat) (v r : List Bool) (fin : List Nat),
    DfsInv g v r fin → (∀ n ∈ nodes, n < g.slots.length) →
    (∀ i, r.get? i ≠ some true) →
    ∃ b, hasCycleOuter g nodes v r = some b ∧
      (b = true ∨ (b = false ∧ ∃ v2 fin2, DfsInv g v2 r fin2 ∧
        (∃ t, fin2 = fin ++ t) ∧ ∀ n ∈ nodes, n ∈ fin2)) := by
  intro nodes
  induction nodes with
  | nil =>
    intro v r fin hInv hb hr
    refine ⟨false, by simp [hasCycleOuter], Or.inr ⟨rfl, v, fin, hInv,
      ⟨[], by simp⟩, ?_⟩⟩
    intro n hn
    simp at hn
  | cons node rest ih =>
    intro v r fin hInv hb hr
    have hnode : node < g.slots.length := hb node (List.mem_cons_self _ _)
    have hnv : node < v.length := by rw [hInv.vlen]; exact hnode
    have hnr : node < r.length := by rw [hInv.rlen]; exact hnode
    obtain ⟨bv, hbv⟩ := get_is_some v node hnv
    cases bv with
    | true =>
      obtain ⟨b, heq, hd⟩ :=
        ih v r fin hInv (fun m hm => hb m (List.mem_cons_of_mem _ hm)) hr
      refine ⟨b, ?_, ?_⟩
      · simp only [hasCycleOuter, hbv]
        exact heq
      · rcases hd with h | ⟨hbf, v2, fin2, hInv2, hext, hall⟩
        · exact Or.inl h
        · refine Or.inr ⟨hbf, v2, fin2, hInv2, hext, ?_⟩
          intro m hm
          rcases List.mem_cons.mp hm with h1 | h2
          · subst h1
            have hrn : r.get? m = some false := by
              obtain ⟨c, hc⟩ := get_is_some r m hnr
              cases c
              · exact hc
              · exact absurd hc (hr m)
            have hmfin : m ∈ fin := (hInv.done m).mpr ⟨hbv, hrn⟩
            obtain ⟨t, ht⟩ := hext
            rw [ht]
            exact List.mem_append_left _ hmfin
          · exact hall m h2
    | false =>
      have hproj := (dfs_proj_eq g (g.slots.length + 1)).1 node v r fin
      have hcf : countFalse v ≤ g.slots.length + 1 := by
        have h1 := countFalse_le_length v
        rw [hInv.vlen] at h1
        omega
      obtain ⟨b2, v2, r2, f2, heqG, hd2⟩ :=
        (dfsG_spec g hE (g.slots.length + 1)).1 node v r fin hInv hnode hbv hcf
      cases b2 with
      | true =>
        refine ⟨true, ?_, Or.inl rfl⟩
        simp only [hasCycleOuter, hbv]
        rw [hproj, heqG]
        rfl
      | false =>
        obtain ⟨hpost, hmem⟩ := hd2.resolve_left (by simp)
        have hreq : r2 = r := hpost.rEq
        have hInv2 : DfsInv g v2 r f2 := by rw [← hreq]; exact hpost.inv
        obtain ⟨b3, heq3, hd3⟩ :=
          ih v2 r f2 hInv2 (fun m hm => hb m (List.mem_cons_of_mem _ hm)) hr
        have hred : hasCycleOuter g (node :: rest) v r =
            hasCycleOuter g rest v2 r2 := by
          simp only [hasCycleOuter, hbv]
          rw [hproj, heqG]
          rfl
        refine ⟨b3, ?_, ?_⟩
        · rw [hred, hreq]
          exact heq3
        · rcases hd3 with h | ⟨hbf, v4, fin4, hInv4, hext4, hall4⟩
          · exact Or.inl h
          · refine Or.inr ⟨hbf, v4, fin4, hInv4, ?_, ?_⟩
            · obtain ⟨t1, ht1⟩ := hpost.finExt
              obtain ⟨t2, ht2⟩ := hext4
              exact ⟨t1 ++ t2, by rw [ht2, ht1, List.append_assoc]⟩
            · intro m hm
              rcases List.mem_cons.mp hm with h1 | h2
              · subst h1
                obtain ⟨t2, ht2⟩ := hext4
                rw [ht2]
                exact List.mem_append_left _ hmem
              · exact hall4 m h2

/-- A finish list in which every node appears and every edge points
strictly backwards is a topological order, so the graph is acyclic. -/
theorem topo_no_cycle (g : WG) (fin : List Nat)
    (hE : ∀ e ∈ g.edges, e.src < g.slots.length ∧ e.tgt < g.slots.length)
    (hall : ∀ n, n < g.slots.length → n ∈ fin)
    (htopo : ∀ k i, fin.get? k = some i → ∀ j, hasEdge g.edges i j →
      j ∈ fin.take k) :
    ¬ CyclicG g := by
  have hstep : ∀ i j, hasEdge g.edges i j → fin.indexOf j < fin.indexOf i := by
    intro i j hij
    obtain ⟨e, he, hs, ht⟩ := hij
    have hiL : i < g.slots.length := by rw [← hs]; exact (hE e he).1
    have hifin : i ∈ fin := hall i hiL
    have hlt : fin.indexOf i < fin.length := List.indexOf_lt_length.mpr hifin
    have hget : fin.get? (fin.indexOf i) = some i := by
      rw [List.get?_eq_get hlt, List.indexOf_get hlt]
    have hjmem := htopo (fin.indexOf i) i hget j ⟨e, he, hs, ht⟩
    exact mem_take_indexOf j fin (fin.indexOf i) hjmem
  have hpath : ∀ a b, EdgePath g.edges a b → fin.indexOf b < fin.indexOf a := by
    intro a b hp
    induction hp with
    | single h => exact hstep _ _ h
    | cons h _ ih => exact lt_trans ih (hstep _ _ h)
  rintro ⟨u, hu⟩
  exact absurd (hpath u u hu) (lt_irrefl _)

/-- Completeness of the DFS cycle check on compact graphs: a directed
cycle is always detected. -/
theorem has_cycle_complete (g : WG) (hC : CompactG g) (hCy : CyclicG g) :
    has_cycle g = some true := by
  obtain ⟨hS, hEdges⟩ := hC
  have hcount : node_count g = g.slots.length := compact_node_count g hS
  have hind : node_indices g = List.range g.slots.length :=
    compact_node_indices g hS
  have hr0 : ∀ i,
      (List.replicate g.slots.length false).get? i ≠ some true := by
    intro i hi
    by_cases hiL : i < g.slots.length
    · rw [get_replicate false g.slots.length i hiL] at hi
      simp at hi
    · rw [List.get?_eq_none.mpr (by simp only [List.length_replicate]; omega)]
        at hi
      simp at hi
  have hInv0 : DfsInv g (List.replicate g.slots.length false)
      (List.replicate g.slots.length false) [] := by
    refine ⟨by simp, by simp, ?_, ?_, List.nodup_nil, ?_⟩
    · intro i hi
      exact absurd hi (hr0 i)
    · intro i
      constructor
      · intro h
        simp at h
      · rintro ⟨h1, _⟩
        by_cases hiL : i < g.slots.length
        · rw [get_replicate false g.slots.length i hiL] at h1
          simp at h1
        · rw [List.get?_eq_none.mpr
            (by simp only [List.length_replicate]; omega)] at h1
          simp at h1
    · intro k i hk
      simp at hk
  obtain ⟨b, heq, hd⟩ := hasCycleOuter_spec g hEdges
    (List.range g.slots.length) (List.replicate g.slots.length false)
    (List.replicate g.slots.length false) [] hInv0
    (fun n hn => List.mem_range.mp hn) hr0
  have hhc : has_cycle g = some b := by
    unfold has_cycle
    rw [hcount, hind]
    exact heq
  rcases hd with h | ⟨hbf, v2, fin2, hInv2, _, hall⟩
  · rw [hhc, h]
  · exfalso
    refine topo_no_cycle g fin2 hEdges ?_ hInv2.topo hCy
    intro n hn
    exact hall n (List.mem_range.mpr hn)

theorem add_edge_slots (g : WG) (s t : Nat) (fl : Flow) :
    (add_edge g s t fl).2.slots = g.slots := by
  cases h : g.edge_free <;> simp [add_edge, h]

theorem add_edge_edges (g : WG) (s t : Nat) (fl : Flow) :
    (add_edge g s t fl).2.edges =
      g.edges ++ [⟨(add_edge g s t fl).1, s, t, fl⟩] := by
  cases h : g.edge_free <;> simp [add_edge, h]

theorem filter_ne_eid (edges : List EdgeRec) (k : Nat)
    (h : ∀ e ∈ edges, e.eid ≠ k) :
    edges.filter (fun e => e.eid ≠ k) = edges := by
  apply List.filter_eq_self.mpr
  intro e he
  simpa using h e he

/-- Removing the freshly inserted edge restores the edge list and the
slots exactly (the free list and the id counter may differ, which is
invisible to adjacency): the rollback path of `connect_agents`. -/
theorem add_remove_edges (g : WG) (s t : Nat) (fl : Flow) (hid : EdgeIdsOK g) :
    (remove_edge (add_edge g s t fl).2 (add_edge g s t fl).1).edges = g.edges ∧
    (remove_edge (add_edge g s t fl).2 (add_edge g s t fl).1).slots =
      g.slots := by
  cases hfree : g.edge_free with
  | nil =>
    simp only [add_edge, hfree, remove_edge]
    constructor
    · rw [List.filter_append,
        filter_ne_eid g.edges g.next_edge
          (fun e he => Nat.ne_of_lt (hid e he).1)]
      simp
    · trivial
  | cons i rest =>
    simp only [add_edge, hfree, remove_edge]
    constructor
    · have h1 : ∀ e ∈ g.edges, e.eid ≠ i := by
        intro e he hEq
        apply (hid e he).2
        rw [hfree, hEq]
        exact List.mem_cons_self _ _
      rw [List.filter_append, filter_ne_eid g.edges i h1]
      simp
    · trivial

theorem alookup_mem {α : Type} (k : String) (v : α) :
    ∀ l : List (String × α), Swarms.alookup k l = some v → (k, v) ∈ l := by
  intro l
  induction l with
  | nil => intro h; simp [Swarms.alookup] at h
  | cons p rest ih =>
    intro h
    obtain ⟨k2, v2⟩ := p
    simp only [Swarms.alookup] at h
    by_cases hk : k2 = k
    · rw [if_pos hk] at h
      injection h with hv
      subst hk
      subst hv
      exact List.mem_cons_self _ _
    · rw [if_neg hk] at h
      exact List.mem_cons_of_mem _ (ih h)

theorem cyclicG_congr (g1 g2 : WG) (h : g1.edges = g2.edges) :
    CyclicG g1 → CyclicG g2 := fun hc => by
  obtain ⟨u, hu⟩ := hc
  exact ⟨u, h ▸ hu⟩

/-- C2 (amended): on a well-formed orchestrator state (as maintained by
registration and connection, i.e. no vacated slot) with both agents
registered and resolved, a `connect_agents` call whose tentative edge
would create a directed cycle returns `CycleDetected` with the graph's
edge list and slots identical to the pre-call state; and any completed
`connect_agents` call preserves acyclicity of the workflow graph. -/
theorem c2_cycle_rollback (ar : AR) (src_name dst_name : String) (flow : Flow)
    (f1 f2 : String → Except String String) (si di : Nat)
    (hwf : WellFormedAR ar)
    (ha1 : Swarms.alookup src_name ar.agents = some f1)
    (ha2 : Swarms.alookup dst_name ar.agents = some f2)
    (hn1 : Swarms.alookup src_name ar.name_to_node = some si)
    (hn2 : Swarms.alookup dst_name ar.name_to_node = some di) :
    (CyclicG (add_edge ar.workflow si di flow).2 →
      ∃ g2, connect_agents ar src_name dst_name flow =
          some (.error .cycleDetected, ⟨ar.agents, g2, ar.name_to_node⟩) ∧
        g2.edges = ar.workflow.edges ∧ g2.slots = ar.workflow.slots) ∧
    (∀ res ar2, connect_agents ar src_name dst_name flow = some (res, ar2) →
      ¬ CyclicG ar.workflow → ¬ CyclicG ar2.workflow) := by
  obtain ⟨⟨hS, hEdges⟩, hIds, hMap⟩ := hwf
  have hsi : si < ar.workflow.slots.length :=
    hMap (src_name, si) (alookup_mem _ _ _ hn1)
  have hdi : di < ar.workflow.slots.length :=
    hMap (dst_name, di) (alookup_mem _ _ _ hn2)
  have hCompact2 : CompactG (add_edge ar.workflow si di flow).2 := by
    constructor
    · intro s hs
      rw [add_edge_slots] at hs
      exact hS s hs
    · intro e he
      rw [add_edge_edges] at he
      rw [add_edge_slots]
      rcases List.mem_append.mp he with h1 | h2
      · exact hEdges e h1
      · rw [List.mem_singleton] at h2
        subst h2
        exact ⟨hsi, hdi⟩
  have hconn : connect_agents ar src_name dst_name flow =
      match has_cycle (add_edge ar.workflow si di flow).2 with
      | none => none
      | some true => some (.error .cycleDetected,
          (⟨ar.agents,
            remove_edge (add_edge ar.workflow si di flow).2
              (add_edge ar.workflow si di flow).1,
            ar.name_to_node⟩ : AR))
      | some false => some (.ok (add_edge ar.workflow si di flow).1,
          (⟨ar.agents, (add_edge ar.workflow si di flow).2,
            ar.name_to_node⟩ : AR)) := by
    simp [connect_agents, ha1, ha2, hn1, hn2]
  constructor
  · intro hcyc
    have htrue := has_cycle_complete _ hCompact2 hcyc
    refine ⟨remove_edge (add_edge ar.workflow si di flow).2
      (add_edge ar.workflow si di flow).1, ?_, ?_, ?_⟩
    · rw [hconn, htrue]
    · exact (add_remove_edges ar.workflow si di flow hIds).1
    · exact (add_remove_edges ar.workflow si di flow hIds).2
  · intro res ar2 heq hnc
    rw [hconn] at heq
    cases hcv : has_cycle (add_edge ar.workflow si di flow).2 with
    | none =>
      rw [hcv] at heq
      exact absurd heq (by simp)
    | some b =>
      cases b with
      | true =>
        rw [hcv] at heq
        injection heq with hpair
        injection hpair with h1 h2
        subst h2
        intro hcyc2
        exact hnc (cyclicG_congr _ _
          ((add_remove_edges ar.workflow si di flow hIds).1) hcyc2)
      | false =>
        rw [hcv] at heq
        injection heq with hpair
        injection hpair with h1 h2
        subst h2
        intro hcyc2
        have htrue := has_cycle_complete _ hCompact2 hcyc2
        rw [hcv] at htrue
        exact absurd htrue (by simp)

/-- Witness for C2 at the reachable state `arBC`: connecting C to B would
close the cycle 1 → 2 → 1, and the call returns `CycleDetected` with
edges and slots unchanged. -/
theorem c2_cycle_rollback_witness :
    WellFormedAR arBC ∧
    CyclicG (add_edge arBC.workflow 2 1 defaultFlow).2 ∧
    ∃ g2, connect_agents arBC "C" "B" defaultFlow =
        some (.error .cycleDetected, ⟨arBC.agents, g2, arBC.name_to_node⟩) ∧
      g2.edges = arBC.workflow.edges ∧ g2.slots = arBC.workflow.slots := by
  have hwf : WellFormedAR arBC := by
    refine ⟨⟨?_, ?_⟩, ?_, ?_⟩
    · intro s hs
      simp [arBC] at hs
      rcases hs with rfl | rfl | rfl <;> rfl
    · intro e he
      simp [arBC] at he
      subst he
      refine ⟨?_, ?_⟩ <;> simp [arBC]
    · intro e he
      simp [arBC] at he
      subst he
      refine ⟨?_, ?_⟩ <;> simp [arBC]
    · intro p hp
      simp [arBC] at hp
      rcases hp with rfl | rfl | rfl <;> simp [arBC]
  have hcyc : CyclicG (add_edge arBC.workflow 2 1 defaultFlow).2 := by
    have hedges : (add_edge arBC.workflow 2 1 defaultFlow).2.edges =
        [⟨0, 1, 2, defaultFlow⟩, ⟨1, 2, 1, defaultFlow⟩] := rfl
    refine ⟨1, .cons ⟨⟨0, 1, 2, defaultFlow⟩, ?_, rfl, rfl⟩
      (.single ⟨⟨1, 2, 1, defaultFlow⟩, ?_, rfl, rfl⟩)⟩
    · rw [hedges]
      exact List.mem_cons_self _ _
    · rw [hedges]
      exact List.mem_cons_of_mem _ (List.mem_cons_self _ _)
  refine ⟨hwf, hcyc, ?_⟩
  exact (c2_cycle_rollback arBC "C" "B" defaultFlow behEcho behEcho 2 1 hwf
    (by simp [arBC, Swarms.alookup]) (by simp [arBC, Swarms.alookup])
    (by simp [arBC, Swarms.alookup]) (by simp [arBC, Swarms.alookup])).1 hcyc

end GW
